import Mathlib

/-!
Shallow embedding of the X-Road catalogue collector.

Python dictionaries are modelled as insertion-ordered association lists,
datetime values as six-field records compared lexicographically (as Python
compares datetime objects), and external collaborators (hashlib.md5,
datetime.strptime, urllib quoting, the xrdinfo client and the raw storage
I/O of the backends) as explicit function parameters.  All functions are
translated from the repository sources in src/xrd_collector.

The file is organised as definitions first, theorems afterwards.
-/

namespace XRC

variable {κ : Type} {ν : Type} {σ : Type}

/-! ## Python dictionaries as insertion-ordered association lists -/

/-- Keys of a Python dict, in insertion order. -/
def pyKeys (d : List (κ × ν)) : List κ := d.map Prod.fst

/-- Values of a Python dict, in insertion order. -/
def pyValues (d : List (κ × ν)) : List ν := d.map Prod.snd

/-- Lookup in a Python dict (first matching key). -/
def pyLookup [DecidableEq κ] : List (κ × ν) → κ → Option ν
  | [], _ => none
  | (k', v) :: rest, k => if k' = k then some v else pyLookup rest k

/-- Assignment d[k] = v in a Python dict: overwrite the value at an
existing key in place, otherwise append the new pair at the end. -/
def pyUpdate [DecidableEq κ] : List (κ × ν) → κ → ν → List (κ × ν)
  | [], k, v => [(k, v)]
  | (k', v') :: rest, k, v =>
      if k' = k then (k', v) :: rest else (k', v') :: pyUpdate rest k v

/-! ## Computable string comparison

Python compares strings lexicographically by code point; Lean's String
order agrees but its comparison function does not reduce inside the
kernel, so an equivalent computable comparison on the character lists is
used by the embedding and related to the order by a theorem below. -/

/-- Lexicographic strict comparison of character lists by code point. -/
def charListLt : List Char → List Char → Bool
  | [], [] => false
  | [], _ :: _ => true
  | _ :: _, [] => false
  | a :: as, b :: bs =>
      if a < b then true else if b < a then false else charListLt as bs

/-- Python strict less-than on strings. -/
def strLtB (a b : String) : Bool := charListLt a.data b.data

/-- Python less-or-equal on strings. -/
def strLeB (a b : String) : Bool := !(strLtB b a)

/-! ## Python datetime values -/

/-- A Python datetime value (naive; microseconds are unused by the program). -/
structure DT where
  year : Nat
  month : Nat
  day : Nat
  hour : Nat
  minute : Nat
  second : Nat
deriving DecidableEq, Repr

/-- Component list, used to order datetimes lexicographically the way
Python compares datetime objects. -/
def DT.fields (d : DT) : List Nat :=
  [d.year, d.month, d.day, d.hour, d.minute, d.second]

instance : LinearOrder DT :=
  LinearOrder.lift' DT.fields (by
    intro a b h
    simp [DT.fields] at h
    obtain ⟨h1, h2, h3, h4, h5, h6⟩ := h
    cases a; cases b; simp_all)

/-! ## util.py: time bucket helpers -/

/-- util.hour_start: beginning of the hour of the given datetime. -/
def hour_start (src_time : DT) : DT :=
  ⟨src_time.year, src_time.month, src_time.day, src_time.hour, 0, 0⟩

/-- util.day_start: beginning of the day of the given datetime. -/
def day_start (src_time : DT) : DT :=
  ⟨src_time.year, src_time.month, src_time.day, 0, 0, 0⟩

/-- util.month_start: beginning of the month of the given datetime. -/
def month_start (src_time : DT) : DT :=
  ⟨src_time.year, src_time.month, 1, 0, 0, 0⟩

/-- util.year_start: beginning of the year of the given datetime. -/
def year_start (src_time : DT) : DT :=
  ⟨src_time.year, 1, 1, 0, 0, 0⟩

/-! ## Decimal digit strings

The storage plugins build document file names with Python f-strings
(decimal rendering of an integer) and recognise them with the anchored
regexes of fs_plugin.py and minio_plugin.py.  natDigits renders a natural
number in decimal; digitsVal reads a digit string back. -/

def digitVal (c : Char) : Nat := c.toNat - 48

def digitsVal (l : List Char) : Nat := l.foldl (fun n c => n * 10 + digitVal c) 0

/-- The decimal digit character for a value below ten. -/
def digitChar10 (m : Nat) : Char :=
  match m with
  | 0 => '0' | 1 => '1' | 2 => '2' | 3 => '3' | 4 => '4'
  | 5 => '5' | 6 => '6' | 7 => '7' | 8 => '8' | _ => '9'

/-- Decimal rendering onto an accumulator; the fuel bounds the number of
digits so that the recursion is structural. -/
def natDigitsAux : Nat → Nat → List Char → List Char
  | 0, _, acc => acc
  | fuel + 1, n, acc =>
      if n < 10 then digitChar10 n :: acc
      else natDigitsAux fuel (n / 10) (digitChar10 (n % 10) :: acc)

/-- Decimal rendering of a natural number, most significant digit first. -/
def natDigits (n : Nat) : List Char := natDigitsAux (n + 1) n []

/-! ## Document file name patterns -/

/-- Strip a literal character-list prefix; none when it does not match. -/
def dropLit : List Char → List Char → Option (List Char)
  | [], s => some s
  | _ :: _, [] => none
  | c :: cs, d :: ds => if c = d then dropLit cs ds else none

/-- Match a file name against the anchored wsdl-file regex of the storage
plugins (digits, then the literal suffix .wsdl) and return the numeric
group. -/
def wsdlNum? (name : String) : Option Nat :=
  let ds := name.data.takeWhile Char.isDigit
  let rest := name.data.dropWhile Char.isDigit
  if ds ≠ [] ∧ rest = ['.', 'w', 's', 'd', 'l'] then some (digitsVal ds) else none

/-- Match a file name against the anchored OpenAPI-file regex of the
storage plugins (the service name, an underscore, digits, then .yaml or
.json) and return the numeric group.  The service name is interpolated
into the regex by the plugins; it is modelled as a literal prefix. -/
def openapiNum? (svc : String) (name : String) : Option Nat :=
  match dropLit (svc.data ++ ['_']) name.data with
  | none => none
  | some rest =>
      let ds := rest.takeWhile Char.isDigit
      let tl := rest.dropWhile Char.isDigit
      if ds ≠ [] ∧ (tl = ['.', 'y', 'a', 'm', 'l'] ∨ tl = ['.', 'j', 's', 'o', 'n']) then
        some (digitsVal ds)
      else none

/-! ## save_doc of the storage plugins (fs_plugin.py and minio_plugin.py)

The md5 function (hashlib.md5(...).hexdigest()) is an explicit parameter.
The effect on storage is reified in the result: the written field records
the file that would be created (none on the dedup fast path), and the
hashes field is the updated filename-to-hash dict. -/

/-- Python renders None as the string None inside an f-string; the plugins
interpolate service_name, which may be None, into the pattern. -/
def svcStr : Option String → String
  | some s => s
  | none => "None"

/-- The file-name pattern selected by the match on file_ext inside the
save_doc loop of both plugins; none models the PluginError branch. -/
def docPat? (file_ext : String) (service_name : Option String) :
    Option (String → Option Nat) :=
  if file_ext = "wsdl" then some wsdlNum?
  else if file_ext = "yaml" ∨ file_ext = "json" then
    some (openapiNum? (svcStr service_name))
  else none

/-- The pattern for a valid file extension, used to state properties. -/
def patFor (file_ext : String) (service_name : Option String) : String → Option Nat :=
  if file_ext = "wsdl" then wsdlNum? else openapiNum? (svcStr service_name)

/-- The scan over hashes.keys() in save_doc: return the first file name
matching both the pattern and the hash, or the running maximum max_doc of
the numeric groups of pattern-matching entries. -/
def scanHashes (pat : String → Option Nat) (doc_hash : String) :
    List (String × String) → Int → Option String × Int
  | [], max_doc => (none, max_doc)
  | (file_name, file_hash) :: rest, max_doc =>
      match pat file_name with
      | none => scanHashes pat doc_hash rest max_doc
      | some n =>
          if doc_hash = file_hash then (some file_name, max_doc)
          else scanHashes pat doc_hash rest (max max_doc (n : Int))

/-- The maximum numeric group over pattern-matching entries, seeded with
the initial value of max_doc (the plugins start from -1). -/
def patMax (pat : String → Option Nat) : List (String × String) → Int → Int
  | [], m => m
  | p :: rest, m =>
      match pat p.1 with
      | some n => patMax pat rest (max m (n : Int))
      | none => patMax pat rest m

/-- Result of FSPlugin.save_doc. -/
structure SaveRes where
  doc_name : String
  doc_hash : String
  hashes : List (String × String)
  written : Option (String × String)
deriving DecidableEq, Repr

/-- Result of MinIOPlugin.save_doc; the write carries a content type. -/
structure MinioSaveRes where
  doc_name : String
  doc_hash : String
  hashes : List (String × String)
  written : Option (String × String × String)
deriving DecidableEq, Repr

/-- Forget the MinIO content type, for comparing the two backends. -/
def minioForget (r : MinioSaveRes) : SaveRes :=
  ⟨r.doc_name, r.doc_hash, r.hashes, r.written.map (fun w => (w.1, w.2.1))⟩

/-- The new file name built by FSPlugin.save_doc. -/
def newDocNameFS (file_ext : String) (service_name : Option String) (n : Nat) : String :=
  if file_ext = "wsdl" then String.mk (natDigits n) ++ ".wsdl"
  else svcStr service_name ++ "_" ++ String.mk (natDigits n) ++ "." ++ file_ext

/-- FSPlugin.save_doc (fs_plugin.py lines 294-330). -/
def FSPlugin.save_doc (md5 : String → String) (hashes : List (String × String))
    (doc : String) (file_ext : String) (service_name : Option String) :
    Except String SaveRes :=
  let doc_hash := md5 doc
  match docPat? file_ext service_name with
  | none => .error ("Unknown file extension: \"" ++ file_ext ++ "\"")
  | some pat =>
      match scanHashes pat doc_hash hashes (-1) with
      | (some file_name, _) => .ok ⟨file_name, doc_hash, hashes, none⟩
      | (none, max_doc) =>
          let new_file := newDocNameFS file_ext service_name (max_doc + 1).toNat
          .ok ⟨new_file, doc_hash, pyUpdate hashes new_file doc_hash,
            some (new_file, doc)⟩

/-- MinIOPlugin.save_doc (minio_plugin.py lines 364-406). -/
def MinIOPlugin.save_doc (md5 : String → String) (hashes : List (String × String))
    (doc : String) (file_ext : String) (service_name : Option String) :
    Except String MinioSaveRes :=
  let doc_hash := md5 doc
  match docPat? file_ext service_name with
  | none => .error ("Unknown file extension: \"" ++ file_ext ++ "\"")
  | some pat =>
      match scanHashes pat doc_hash hashes (-1) with
      | (some file_name, _) => .ok ⟨file_name, doc_hash, hashes, none⟩
      | (none, max_doc) =>
          if file_ext = "wsdl" then
            let new_file := String.mk (natDigits (max_doc + 1).toNat) ++ ".wsdl"
            .ok ⟨new_file, doc_hash, pyUpdate hashes new_file doc_hash,
              some (new_file, doc, "text/xml")⟩
          else if file_ext = "yaml" then
            let new_file :=
              svcStr service_name ++ "_" ++ String.mk (natDigits (max_doc + 1).toNat) ++ ".yaml"
            .ok ⟨new_file, doc_hash, pyUpdate hashes new_file doc_hash,
              some (new_file, doc, "text/yaml")⟩
          else
            let new_file :=
              svcStr service_name ++ "_" ++ String.mk (natDigits (max_doc + 1).toNat) ++ ".json"
            .ok ⟨new_file, doc_hash, pyUpdate hashes new_file doc_hash,
              some (new_file, doc, "application/json")⟩

/-! ## util.py: data model and export functions -/

/-- An endpoint entry is a Python dict of strings. -/
abbrev Endpoint := List (String × String)

/-- util.Method. -/
structure Method where
  service_code : String
  service_version : String
  status : String
  wsdl : String
  hash : String
deriving DecidableEq, Repr

/-- util.Service. -/
structure Service where
  service_code : String
  status : String
  openapi : String
  hash : String
  endpoints : List Endpoint
deriving DecidableEq, Repr

/-- util.Subsystem. -/
structure Subsystem where
  path : String
  x_road_instance : String
  member_class : String
  member_code : String
  subsystem_code : String
  methods_status : String
  services_status : String
  methods : List Method
  services : List Service
deriving DecidableEq, Repr

/-- os.path.join for the two-argument uses in util.py. -/
def os_path_join (path w : String) : String :=
  if path = "" then w
  else if w.startsWith "/" then w
  else if path.endsWith "/" then path ++ w
  else path ++ "/" ++ w

/-- The JSON object produced by util.export_method. -/
structure ExportedMethod where
  serviceCode : String
  serviceVersion : String
  methodStatus : String
  wsdl : String
deriving DecidableEq, Repr

/-- The JSON object produced by util.export_service. -/
structure ExportedService where
  serviceCode : String
  status : String
  openapi : String
  endpoints : List Endpoint
deriving DecidableEq, Repr

/-- The JSON object produced by util.export_subsystem. -/
structure ExportedSubsystem where
  xRoadInstance : String
  memberClass : String
  memberCode : String
  subsystemCode : String
  subsystemStatus : String
  servicesStatus : String
  methods : List ExportedMethod
  services : List ExportedService
deriving DecidableEq, Repr

/-- util.export_method. -/
def export_method (method : Method) (path : String) : ExportedMethod :=
  { serviceCode := method.service_code
    serviceVersion := method.service_version
    methodStatus := method.status
    wsdl := if method.wsdl ≠ "" then os_path_join path method.wsdl else "" }

/-- util.export_service. -/
def export_service (service : Service) (path : String) : ExportedService :=
  { serviceCode := service.service_code
    status := service.status
    openapi := if service.openapi ≠ "" then os_path_join path service.openapi else ""
    endpoints := service.endpoints }

/-- util.export_subsystem (util.py lines 67-81). -/
def export_subsystem (subsystem : Subsystem) : ExportedSubsystem :=
  { xRoadInstance := subsystem.x_road_instance
    memberClass := subsystem.member_class
    memberCode := subsystem.member_code
    subsystemCode := subsystem.subsystem_code
    subsystemStatus := if subsystem.methods_status = "OK" then "OK" else "ERROR"
    servicesStatus := if subsystem.services_status = "OK" then "OK" else "ERROR"
    methods := subsystem.methods.map (fun m => export_method m subsystem.path)
    services := subsystem.services.map (fun s => export_service s subsystem.path) }

/-! ## util.py: filtered_history

History entries carry the report time as a string; datetime.strptime is an
explicit parameter (an external library call), and the three window
cutoffs stand for shift_current_hour(-filtered_hours),
shift_current_day(-filtered_days) and shift_current_month(-filtered_months)
evaluated at the fixed current time. -/

/-- An entry of history.json. -/
structure HItem where
  reportTime : String
  reportPath : String
deriving DecidableEq, Repr

/-- The min_time admission test of util.add_filtered. -/
def cutOkB (min_time : Option DT) (item_key : DT) : Bool :=
  match min_time with
  | none => true
  | some m => decide (m ≤ item_key)

/-- The inner update of util.add_filtered: keep the entry with the
smallest report time per bucket key (first one wins ties). -/
def add_filtered_upd (filtered : List (DT × DT × HItem)) (item_key : DT)
    (report_time : DT) (history_item : HItem) : List (DT × DT × HItem) :=
  match pyLookup filtered item_key with
  | none => pyUpdate filtered item_key (report_time, history_item)
  | some prev =>
      if report_time < prev.1 then pyUpdate filtered item_key (report_time, history_item)
      else filtered

/-- util.add_filtered (util.py lines 143-149). -/
def add_filtered (filtered : List (DT × DT × HItem)) (item_key : DT)
    (report_time : DT) (history_item : HItem) (min_time : Option DT) :
    List (DT × DT × HItem) :=
  if cutOkB min_time item_key then add_filtered_upd filtered item_key report_time history_item
  else filtered

/-- One iteration of the loop of util.filtered_history: parse the report
time (ValueError aborts, as strptime raises) and feed the four bucket
granularities to add_filtered. -/
def histStep (strptime : String → Option DT) (hour_cut day_cut month_cut : DT)
    (fi : List (DT × DT × HItem)) (history_item : HItem) :
    Except String (List (DT × DT × HItem)) :=
  match strptime history_item.reportTime with
  | none => .error "ValueError"
  | some report_time =>
      .ok (add_filtered
            (add_filtered
              (add_filtered
                (add_filtered fi (hour_start report_time) report_time history_item
                  (some hour_cut))
                (day_start report_time) report_time history_item (some day_cut))
              (month_start report_time) report_time history_item (some month_cut))
            (year_start report_time) report_time history_item none)

/-- The loop of util.filtered_history over the history list. -/
def histFold (strptime : String → Option DT) (hour_cut day_cut month_cut : DT) :
    List HItem → List (DT × DT × HItem) → Except String (List (DT × DT × HItem))
  | [], fi => .ok fi
  | item :: rest, fi =>
      match histStep strptime hour_cut day_cut month_cut fi item with
      | .error e => .error e
      | .ok fi' => histFold strptime hour_cut day_cut month_cut rest fi'

/-- Descending sort by the reportTime string (list.sort with
key=reportTime and reverse=True; the sorted entries have pairwise
distinct reportTime keys, so stability does not matter). -/
def histSortDesc (l : List HItem) : List HItem :=
  List.insertionSort (fun a b => strLeB b.reportTime a.reportTime = true) l

/-- util.filtered_history (util.py lines 152-185). -/
def filtered_history (strptime : String → Option DT) (json_history : List HItem)
    (hour_cut day_cut month_cut : DT) : Except String (List HItem) :=
  match histFold strptime hour_cut day_cut month_cut json_history [] with
  | .error e => .error e
  | .ok filtered_items =>
      match json_history with
      | [] => .error "IndexError"
      | latest :: _ =>
          let unique_items := filtered_items.foldl
            (fun u kv => pyUpdate u kv.2.2.reportTime kv.2.2)
            [(latest.reportTime, latest)]
          .ok (histSortDesc (pyValues unique_items))

/-! ## util.py: get_reports_to_keep -/

/-- A report entry as built by util.add_report_file without history flag:
the report time is a parsed datetime. -/
structure Report where
  reportTime : DT
  reportPath : String
deriving DecidableEq, Repr

/-- One iteration of the loop of util.get_reports_to_keep: fresh reports
go to unique_paths, old reports compete for the first-of-day slot. -/
def keepStep (fresh_time : DT) (acc : List (DT × String) × List (DT × Report))
    (report : Report) : List (DT × String) × List (DT × Report) :=
  if fresh_time ≤ report.reportTime then
    (pyUpdate acc.1 report.reportTime report.reportPath, acc.2)
  else
    let item_key := day_start report.reportTime
    match pyLookup acc.2 item_key with
    | none => (acc.1, pyUpdate acc.2 item_key report)
    | some item =>
        if report.reportTime < item.reportTime then
          (acc.1, pyUpdate acc.2 item_key report)
        else (acc.1, acc.2)

/-- Ascending sort of path strings (list.sort on the result). -/
def pathSort (l : List String) : List String :=
  List.insertionSort (fun a b => strLeB a b = true) l

/-- util.get_reports_to_keep (util.py lines 206-232).  The IndexError of
reports[0] on an empty list is modelled as an error result. -/
def get_reports_to_keep (reports : List Report) (fresh_time : DT) :
    Except String (List String) :=
  match reports with
  | [] => .error "IndexError"
  | r0 :: _ =>
      let acc := reports.foldl (keepStep fresh_time)
        ([(r0.reportTime, r0.reportPath)], [])
      let unique_paths := acc.2.foldl
        (fun u kv => pyUpdate u kv.2.reportTime kv.2.reportPath) acc.1
      .ok (pathSort (pyValues unique_paths))

/-! ## collector.py: the per-subsystem processor

The xrdinfo client, the wsdl_replaces normalisation, urllib quoting and
the storage plugin are external to the processor and appear as an
environment of explicit functions.  Storage save_doc is abstracted as a
state transformer returning the document name and hash; each external
request and storage write is recorded in a trace. -/

/-- Outcome of an xrdinfo request (listMethods or a document fetch). -/
inductive XrdFetch (α : Type) where
  | timeout
  | clientError (msg : String)
  | ok (val : α)
deriving DecidableEq

/-- Outcome of an xrdinfo.openapi request; NotOpenapiServiceError is the
distinguished extra case. -/
inductive OpenapiRes where
  | timeout
  | notOpenapiService
  | clientError (msg : String)
  | ok (doc : String)
deriving DecidableEq

/-- Events observable in the environment during subsystem processing. -/
inductive Ev where
  | fetchWsdl (name : String)
  | fetchOpenapi (name : String)
  | savedDoc (doc : String) (file_ext : String)
  | savedState (doc_type : String)
deriving DecidableEq, Repr

/-- Environment of one subsystem processing run.  wsdl_methods and
openapi_endpoints return none where xrdinfo raises; load_openapi returns
the openapi_type.  save_doc takes the hashes state, the document, the
file extension and the optional service name. -/
structure CollectorEnv (σ : Type) where
  methods_list : XrdFetch (List (List String))
  wsdl : List String → XrdFetch String
  methods_rest : XrdFetch (List (List String))
  openapi : List String → OpenapiRes
  prepare_wsdl : String → String
  wsdl_methods : String → Option (List (List String))
  load_openapi : String → Option String
  openapi_endpoints : String → Option (List Endpoint)
  quote : String → String
  save_doc : σ → String → String → Option String → σ × String × String

/-- Collector._identifier_path. -/
def identifier_path (items : List String) : String := String.intercalate "/" items

/-- Collector._method_item.  xrdinfo yields six-part service identifiers;
out-of-range access is modelled with a default. -/
def method_item (method : List String) (status wsdl doc_hash : String) : Method :=
  { service_code := method.getD 4 ""
    service_version := method.getD 5 ""
    status := status
    wsdl := wsdl
    hash := doc_hash }

/-- Collector._service_item. -/
def service_item (service : List String) (status openapi doc_hash : String)
    (endpoints : List Endpoint) : Service :=
  { service_code := service.getD 4 ""
    status := status
    openapi := openapi
    hash := doc_hash
    endpoints := endpoints }

/-- Python lexicographic comparison of string sequences, as used by
sorted() on the identifiers yielded by xrdinfo. -/
def pyStrListLe : List String → List String → Bool
  | [], _ => true
  | _ :: _, [] => false
  | x :: xs, y :: ys =>
      if strLtB x y then true else if strLtB y x then false else pyStrListLe xs ys

/-- sorted(...) over identifiers. -/
def pySortIds (l : List (List String)) : List (List String) :=
  List.insertionSort (fun a b => pyStrListLe a b = true) l

/-- Loop state of Collector._process_methods. -/
structure MState (σ : Type) where
  method_index : List (String × Method)
  skip_methods : Bool
  store : σ
  trace : List Ev

/-- One iteration of the method loop in Collector._process_methods
(collector.py lines 303-350).  wsdl_methods is modelled as returning the
complete operation list or failing. -/
def mstep (env : CollectorEnv σ) (subsystem : List String) (s : MState σ)
    (method : List String) : MState σ :=
  let method_name := identifier_path method
  if method_name ∈ pyKeys s.method_index then s
  else if s.skip_methods then
    { s with method_index :=
        pyUpdate s.method_index method_name (method_item method "SKIPPED" "" "") }
  else
    match env.wsdl method with
    | .timeout =>
        { method_index :=
            pyUpdate s.method_index method_name (method_item method "TIMEOUT" "" "")
          skip_methods := true
          store := s.store
          trace := s.trace ++ [.fetchWsdl method_name] }
    | .clientError _ =>
        { s with
            method_index :=
              pyUpdate s.method_index method_name (method_item method "ERROR" "" "")
            trace := s.trace ++ [.fetchWsdl method_name] }
    | .ok wsdl0 =>
        let wsdl1 := env.prepare_wsdl wsdl0
        let sv := env.save_doc s.store wsdl1 "wsdl" none
        let tr := s.trace ++ [.fetchWsdl method_name, .savedDoc wsdl1 "wsdl"]
        match env.wsdl_methods wsdl1 with
        | some wsdl_ms =>
            let idx := wsdl_ms.foldl (fun idx wm =>
                pyUpdate idx (identifier_path (subsystem ++ wm))
                  (method_item (subsystem ++ wm) "OK" (env.quote sv.2.1) sv.2.2))
              s.method_index
            let idx :=
              if method_name ∈ pyKeys idx then idx
              else pyUpdate idx method_name (method_item method "ERROR" "" "")
            { method_index := idx
              skip_methods := s.skip_methods
              store := sv.1
              trace := tr }
        | none =>
            { method_index :=
                pyUpdate s.method_index method_name (method_item method "ERROR" "" "")
              skip_methods := s.skip_methods
              store := sv.1
              trace := tr }

/-- The method-loop state after the first k sorted methods. -/
def methodsStateAt (env : CollectorEnv σ) (subsystem : List String) (st0 : σ)
    (ms : List (List String)) (k : Nat) : MState σ :=
  (ms.take k).foldl (mstep env subsystem) ⟨[], false, st0, []⟩

/-- Collector._process_methods (collector.py lines 279-354).  st0 is the
hashes state from storage.subsystem_state.  Returns the (status, methods)
pair, the final storage state and the event trace. -/
def process_methods (env : CollectorEnv σ) (subsystem : List String) (st0 : σ) :
    (String × List (String × Method)) × σ × List Ev :=
  match env.methods_list with
  | .timeout => (("TIMEOUT", []), st0, [])
  | .clientError _ => (("ERROR", []), st0, [])
  | .ok methods =>
      let s := (pySortIds methods).foldl (mstep env subsystem) ⟨[], false, st0, []⟩
      (("OK", s.method_index), s.store, s.trace ++ [.savedState "wsdl"])

/-- Loop state of Collector._process_services. -/
structure SState (σ : Type) where
  results : List Service
  skip_services : Bool
  store : σ
  trace : List Ev

/-- One iteration of the service loop in Collector._process_services
(collector.py lines 381-420). -/
def sstep (env : CollectorEnv σ) (s : SState σ) (service : List String) : SState σ :=
  let service_name := identifier_path service
  if s.skip_services then
    { s with results := s.results ++ [service_item service "SKIPPED" "" "" []] }
  else
    match env.openapi service with
    | .timeout =>
        { results := s.results ++ [service_item service "TIMEOUT" "" "" []]
          skip_services := true
          store := s.store
          trace := s.trace ++ [.fetchOpenapi service_name] }
    | .notOpenapiService =>
        { s with
            results := s.results ++ [service_item service "OK" "" "" []]
            trace := s.trace ++ [.fetchOpenapi service_name] }
    | .clientError _ =>
        { s with
            results := s.results ++ [service_item service "ERROR" "" "" []]
            trace := s.trace ++ [.fetchOpenapi service_name] }
    | .ok openapi_doc =>
        let tr := s.trace ++ [.fetchOpenapi service_name]
        match env.load_openapi openapi_doc with
        | none =>
            { s with
                results := s.results ++ [service_item service "ERROR" "" "" []]
                trace := tr }
        | some openapi_type =>
            match env.openapi_endpoints openapi_doc with
            | none =>
                { s with
                    results := s.results ++ [service_item service "ERROR" "" "" []]
                    trace := tr }
            | some endpoints =>
                let sv := env.save_doc s.store openapi_doc openapi_type
                  (some (service.getD 4 ""))
                { results := s.results ++
                    [service_item service "OK" (env.quote sv.2.1) sv.2.2 endpoints]
                  skip_services := s.skip_services
                  store := sv.1
                  trace := tr ++ [.savedDoc openapi_doc openapi_type] }

/-- Collector._process_services (collector.py lines 356-424). -/
def process_services (env : CollectorEnv σ) (st0 : σ) :
    (String × List Service) × σ × List Ev :=
  match env.methods_rest with
  | .timeout => (("TIMEOUT", []), st0, [])
  | .clientError _ => (("ERROR", []), st0, [])
  | .ok services =>
      let s := (pySortIds services).foldl (sstep env) ⟨[], false, st0, []⟩
      (("OK", s.results), s.store, s.trace ++ [.savedState "openapi"])

/-! ## collector.py: result processing -/

/-- Collector._all_results_failed (collector.py lines 269-277). -/
def all_results_failed (subsystems : List (String × Subsystem)) : Bool :=
  subsystems.all (fun p => !(p.2.methods_status == "OK"))

/-- Observable outcome of Collector._process_results: either the program
exits with a code before writing, or the catalogue is saved. -/
inductive RunOutcome where
  | exited (code : Nat)
  | savedCatalogue (results : List (String × Subsystem))
deriving DecidableEq

/-- Collector._process_results (collector.py lines 464-476). -/
def process_results (storage_active : Bool) (results : List (String × Subsystem)) :
    RunOutcome :=
  if !storage_active then .exited 1
  else if all_results_failed results then .exited 1
  else .savedCatalogue results

/-! ## Predicates used to state the claims -/

/-- The retention condition of claim C2 for one report: fresh, or the
earliest report of its calendar day among the old reports, or the first
report of the input list. -/
abbrev keepCond (reports : List Report) (fresh_time : DT) (r0 r : Report) : Prop :=
  fresh_time ≤ r.reportTime ∨ r = r0 ∨
    (r.reportTime < fresh_time ∧ ∀ r' ∈ reports, r'.reportTime < fresh_time →
      day_start r'.reportTime = day_start r.reportTime → r.reportTime ≤ r'.reportTime)

/-- The four bucket granularities of util.filtered_history with their
window cutoffs. -/
def granularities (hour_cut day_cut month_cut : DT) : List ((DT → DT) × Option DT) :=
  [(hour_start, some hour_cut), (day_start, some day_cut),
   (month_start, some month_cut), (year_start, none)]

/-- An entry is the earliest of some bucket: for one of the granularities
its bucket key passes the window cutoff and its parsed report time is
minimal among the input entries falling into the same bucket. -/
def isBucketMin (strptime : String → Option DT) (json_history : List HItem)
    (hour_cut day_cut month_cut : DT) (e : HItem) : Prop :=
  ∃ t, strptime e.reportTime = some t ∧
    ∃ g ∈ granularities hour_cut day_cut month_cut,
      cutOkB g.2 (g.1 t) = true ∧
        ∀ e' ∈ json_history, ∀ t', strptime e'.reportTime = some t' →
          g.1 t' = g.1 t → t ≤ t'

/-- A parsed time t contributes to bucket key K through one of the listed
granularities whose window admits K. -/
def ContrVia (gs : List ((DT → DT) × Option DT)) (K t : DT) : Prop :=
  ∃ g ∈ gs, g.1 t = K ∧ cutOkB g.2 K = true

/-- Invariant of the filtered_items dict of util.filtered_history after
processing the prefix pre of the history: every stored entry is the
time-minimal contributor of its key, every contributed key is present,
and an entry carrying the newest entry's reportTime string is the newest
entry itself. -/
def HistInv (strptime : String → Option DT) (hour_cut day_cut month_cut : DT)
    (latest : HItem) (pre : List HItem) (fi : List (DT × DT × HItem)) : Prop :=
  (pyKeys fi).Nodup ∧
  (∀ K t item, pyLookup fi K = some (t, item) →
    item ∈ pre ∧ strptime item.reportTime = some t ∧
    ContrVia (granularities hour_cut day_cut month_cut) K t ∧
    (∀ e' ∈ pre, ∀ t', strptime e'.reportTime = some t' →
      ContrVia (granularities hour_cut day_cut month_cut) K t' → t ≤ t')) ∧
  (∀ K, (∃ e ∈ pre, ∃ t, strptime e.reportTime = some t ∧
      ContrVia (granularities hour_cut day_cut month_cut) K t) →
    (pyLookup fi K).isSome = true) ∧
  (∀ K t item, pyLookup fi K = some (t, item) →
    item.reportTime = latest.reportTime → item = latest)

/-- Intermediate invariant while one history item is being fed through
the four add_filtered calls; gs_done lists the granularities already
applied for this item. -/
def HistMidInv (strptime : String → Option DT) (hour_cut day_cut month_cut : DT)
    (latest : HItem) (pre : List HItem) (e : HItem) (te : DT)
    (gs_done : List ((DT → DT) × Option DT)) (fi : List (DT × DT × HItem)) : Prop :=
  (pyKeys fi).Nodup ∧
  (∀ K t item, pyLookup fi K = some (t, item) →
    (item ∈ pre ∨ (item = e ∧ t = te)) ∧ strptime item.reportTime = some t ∧
    ContrVia (granularities hour_cut day_cut month_cut) K t ∧
    (∀ e' ∈ pre, ∀ t', strptime e'.reportTime = some t' →
      ContrVia (granularities hour_cut day_cut month_cut) K t' → t ≤ t') ∧
    (ContrVia gs_done K te → t ≤ te)) ∧
  (∀ K, ((∃ e' ∈ pre, ∃ t, strptime e'.reportTime = some t ∧
      ContrVia (granularities hour_cut day_cut month_cut) K t) ∨
      ContrVia gs_done K te) →
    (pyLookup fi K).isSome = true) ∧
  (∀ K t item, pyLookup fi K = some (t, item) →
    item.reportTime = latest.reportTime → item = latest)

/-- A concrete strptime table for evaluating the history theorems. -/
def strptimeEx (s : String) : Option DT :=
  if s = "2020-01-01 10:30:00" then some ⟨2020, 1, 1, 10, 30, 0⟩
  else if s = "2020-01-01 10:00:00" then some ⟨2020, 1, 1, 10, 0, 0⟩
  else none

/-! ## Concrete environments used to evaluate the theorems -/

/-- A minimal collector environment with constant answers. -/
def constEnv (ml : XrdFetch (List (List String))) (w : XrdFetch String)
    (o : OpenapiRes) : CollectorEnv Unit :=
  { methods_list := ml
    wsdl := fun _ => w
    methods_rest := ml
    openapi := fun _ => o
    prepare_wsdl := id
    wsdl_methods := fun _ => none
    load_openapi := fun _ => none
    openapi_endpoints := fun _ => none
    quote := id
    save_doc := fun st _ _ _ => (st, "", "") }

/-- An environment whose single REST service has an OpenAPI document with
one endpoint. -/
def envC6 : CollectorEnv Unit :=
  { methods_list := .timeout
    wsdl := fun _ => .timeout
    methods_rest := .ok [["i", "c", "m", "s", "code"]]
    openapi := fun _ => .ok "doc0"
    prepare_wsdl := id
    wsdl_methods := fun _ => none
    load_openapi := fun _ => some "json"
    openapi_endpoints := fun _ => some [[("verb", "GET")]]
    quote := id
    save_doc := fun st _ _ _ => (st, "svc_0.json", "h0") }

/-! ## Theorems: Python dict lemmas -/

theorem pyLookup_update_self [DecidableEq κ] (d : List (κ × ν)) (k : κ) (v : ν) :
    pyLookup (pyUpdate d k v) k = some v := by
  induction d with
  | nil => simp [pyUpdate, pyLookup]
  | cons p rest ih =>
      obtain ⟨k', v'⟩ := p
      by_cases h : k' = k <;> simp [pyUpdate, pyLookup, h, ih]

theorem pyLookup_update_ne [DecidableEq κ] (d : List (κ × ν)) (k t : κ) (v : ν)
    (h : t ≠ k) : pyLookup (pyUpdate d k v) t = pyLookup d t := by
  have hkt : k ≠ t := fun hh => h hh.symm
  induction d with
  | nil => simp [pyUpdate, pyLookup, hkt]
  | cons p rest ih =>
      obtain ⟨k', v'⟩ := p
      by_cases hk : k' = k
      · subst hk
        simp [pyUpdate, pyLookup, hkt]
      · simp only [pyUpdate, if_neg hk, pyLookup, ih]

theorem pyKeys_update_of_mem [DecidableEq κ] (d : List (κ × ν)) (k : κ) (v : ν)
    (h : k ∈ pyKeys d) : pyKeys (pyUpdate d k v) = pyKeys d := by
  induction d with
  | nil => simp [pyKeys] at h
  | cons p rest ih =>
      obtain ⟨k', v'⟩ := p
      by_cases hk : k' = k
      · simp [pyUpdate, pyKeys, hk]
      · have hmem : k ∈ pyKeys rest := by
          simp only [pyKeys, List.map_cons, List.mem_cons] at h
          rcases h with h | h
          · exact absurd h.symm hk
          · exact h
        simp only [pyUpdate, if_neg hk, pyKeys, List.map_cons, List.cons.injEq, true_and]
        exact ih hmem

theorem pyKeys_update_of_not_mem [DecidableEq κ] (d : List (κ × ν)) (k : κ) (v : ν)
    (h : k ∉ pyKeys d) : pyKeys (pyUpdate d k v) = pyKeys d ++ [k] := by
  induction d with
  | nil => simp [pyUpdate, pyKeys]
  | cons p rest ih =>
      obtain ⟨k', v'⟩ := p
      have hk : k' ≠ k := by
        intro hh
        exact h (by simp [pyKeys, hh])
      have hmem : k ∉ pyKeys rest := by
        intro hh
        refine h ?_
        simp only [pyKeys, List.map_cons, List.mem_cons]
        exact Or.inr hh
      simp only [pyUpdate, if_neg hk, pyKeys, List.map_cons, List.cons_append,
        List.cons.injEq, true_and]
      exact ih hmem

theorem pyKeys_nodup_update [DecidableEq κ] (d : List (κ × ν)) (k : κ) (v : ν)
    (h : (pyKeys d).Nodup) : (pyKeys (pyUpdate d k v)).Nodup := by
  by_cases hm : k ∈ pyKeys d
  · rw [pyKeys_update_of_mem d k v hm]; exact h
  · rw [pyKeys_update_of_not_mem d k v hm]
    simpa [List.nodup_append] using ⟨h, hm⟩

theorem pyUpdate_append_of_not_mem [DecidableEq κ] (d : List (κ × ν)) (k : κ) (v : ν)
    (h : k ∉ pyKeys d) : pyUpdate d k v = d ++ [(k, v)] := by
  induction d with
  | nil => simp [pyUpdate]
  | cons p rest ih =>
      obtain ⟨k', v'⟩ := p
      have hk : k' ≠ k := by
        intro hh
        exact h (by simp [pyKeys, hh])
      have hmem : k ∉ pyKeys rest := by
        intro hh
        refine h ?_
        simp only [pyKeys, List.map_cons, List.mem_cons]
        exact Or.inr hh
      simp [pyUpdate, hk, ih hmem]

theorem mem_pyValues_update [DecidableEq κ] (d : List (κ × ν)) (k : κ) (v w : ν)
    (h : w ∈ pyValues (pyUpdate d k v)) : w = v ∨ w ∈ pyValues d := by
  induction d with
  | nil => simpa [pyUpdate, pyValues] using h
  | cons p rest ih =>
      obtain ⟨k', v'⟩ := p
      by_cases hk : k' = k
      · simp [pyUpdate, pyValues, hk] at h
        rcases h with h | h
        · exact Or.inl h
        · exact Or.inr (by simp [pyValues, h])
      · simp [pyUpdate, pyValues, hk] at h
        rcases h with h | h
        · exact Or.inr (by simp [pyValues, h])
        · rcases ih (by simpa [pyValues] using h) with h' | h'
          · exact Or.inl h'
          · exact Or.inr (by simp [pyValues] at h' ⊢; exact Or.inr h')

theorem pyLookup_eq_some_mem [DecidableEq κ] (d : List (κ × ν)) (k : κ) (v : ν)
    (h : pyLookup d k = some v) : (k, v) ∈ d := by
  induction d with
  | nil => simp [pyLookup] at h
  | cons p rest ih =>
      obtain ⟨k', v'⟩ := p
      by_cases hk : k' = k
      · subst hk
        simp [pyLookup] at h
        simp [h]
      · simp [pyLookup, hk] at h
        exact List.mem_cons_of_mem _ (ih h)

theorem mem_pyValues_of_lookup [DecidableEq κ] (d : List (κ × ν)) (k : κ) (v : ν)
    (h : pyLookup d k = some v) : v ∈ pyValues d := by
  have := pyLookup_eq_some_mem d k v h
  simpa [pyValues] using List.mem_map_of_mem Prod.snd this

theorem pyLookup_of_mem_nodup [DecidableEq κ] (d : List (κ × ν)) (k : κ) (v : ν)
    (hnd : (pyKeys d).Nodup) (h : (k, v) ∈ d) : pyLookup d k = some v := by
  induction d with
  | nil => simp at h
  | cons p rest ih =>
      obtain ⟨k', v'⟩ := p
      rcases List.mem_cons.mp h with h | h
      · cases h
        simp [pyLookup]
      · have hk : k' ≠ k := by
          intro hh
          subst hh
          have : k' ∈ pyKeys rest := by
            simpa [pyKeys] using List.mem_map_of_mem Prod.fst h
          simp [pyKeys] at hnd
          exact absurd this (by simpa [pyKeys] using hnd.1)
        have hnd' : (pyKeys rest).Nodup := by
          simp [pyKeys] at hnd ⊢
          exact hnd.2
        simp [pyLookup, hk]
        exact ih hnd' h

theorem mem_pyValues_iff_lookup [DecidableEq κ] (d : List (κ × ν)) (v : ν)
    (hnd : (pyKeys d).Nodup) : v ∈ pyValues d ↔ ∃ k, pyLookup d k = some v := by
  constructor
  · intro h
    simp only [pyValues, List.mem_map] at h
    obtain ⟨⟨k, v'⟩, hm, hv⟩ := h
    cases hv
    exact ⟨k, pyLookup_of_mem_nodup d k _ hnd hm⟩
  · rintro ⟨k, hk⟩
    exact mem_pyValues_of_lookup d k v hk

/-! ## Theorems: the computable string comparison agrees with the order -/

theorem charListLt_iff (x : List Char) : ∀ y,
    charListLt x y = true ↔ List.Lex (· < ·) x y := by
  induction x with
  | nil =>
      intro y
      cases y with
      | nil =>
          apply iff_of_false
          · simp [charListLt]
          · intro h
            cases h
      | cons b bs => exact iff_of_true rfl List.Lex.nil
  | cons a as ih =>
      intro y
      cases y with
      | nil =>
          apply iff_of_false
          · simp [charListLt]
          · intro h
            cases h
      | cons b bs =>
          rcases lt_trichotomy a b with h | h | h
          · exact iff_of_true (by simp [charListLt, h]) (List.Lex.rel h)
          · subst h
            rw [show charListLt (a :: as) (a :: bs) = charListLt as bs by
              simp [charListLt]]
            rw [ih bs]
            exact List.Lex.cons_iff.symm
          · apply iff_of_false
            · simp [charListLt, h, not_lt_of_gt h]
            · intro hh
              cases hh with
              | rel h' => exact absurd h' (not_lt_of_gt h)
              | cons h' => exact absurd h (lt_irrefl a)

theorem strLtB_iff (a b : String) : strLtB a b = true ↔ a < b := by
  rw [String.lt_iff_toList_lt]
  exact charListLt_iff a.data b.data

theorem strLeB_iff (a b : String) : strLeB a b = true ↔ a ≤ b := by
  simp only [strLeB, Bool.not_eq_true']
  rw [← not_lt]
  constructor
  · intro hh hl
    rw [← strLtB_iff] at hl
    rw [hh] at hl
    cases hl
  · intro hh
    rcases Bool.eq_false_or_eq_true (strLtB b a) with h | h
    · exact absurd ((strLtB_iff b a).mp h) hh
    · exact h

/-! ## Theorems: decimal digit strings and file name patterns -/

theorem digitVal_digitChar10 (m : Nat) (h : m < 10) : digitVal (digitChar10 m) = m := by
  interval_cases m <;> decide

theorem isDigit_digitChar10 (m : Nat) : (digitChar10 m).isDigit := by
  rcases m with _ | _ | _ | _ | _ | _ | _ | _ | _ | m <;> rfl

theorem digitsVal_append (l : List Char) (c : Char) :
    digitsVal (l ++ [c]) = 10 * digitsVal l + digitVal c := by
  simp [digitsVal, List.foldl_append, Nat.mul_comm]

theorem natDigitsAux_spec (fuel : Nat) :
    ∀ n acc, n < 10 ^ fuel → 0 < fuel →
      ∃ ds, natDigitsAux fuel n acc = ds ++ acc ∧ ds ≠ [] ∧
        (∀ c ∈ ds, c.isDigit) ∧ digitsVal ds = n := by
  induction fuel with
  | zero => intro n acc hn hf; omega
  | succ f ih =>
      intro n acc hn hf
      by_cases h : n < 10
      · refine ⟨[digitChar10 n], ?_, by simp, ?_, ?_⟩
        · simp [natDigitsAux, h]
        · intro c hc
          simp at hc
          subst hc
          exact isDigit_digitChar10 n
        · simp [digitsVal, digitVal_digitChar10 n h]
      · have hfpos : 0 < f := by
          rcases Nat.eq_zero_or_pos f with hf0 | hf0
          · subst hf0
            simp at hn
            omega
          · exact hf0
        have hdiv : n / 10 < 10 ^ f := by
          rw [Nat.div_lt_iff_lt_mul (by omega)]
          calc n < 10 ^ (f + 1) := hn
          _ = 10 ^ f * 10 := by ring
        obtain ⟨ds, hds, hne, hdig, hval⟩ :=
          ih (n / 10) (digitChar10 (n % 10) :: acc) hdiv hfpos
        refine ⟨ds ++ [digitChar10 (n % 10)], ?_, by simp [hne], ?_, ?_⟩
        · simp [natDigitsAux, h, hds]
        · intro c hc
          rcases List.mem_append.mp hc with hc | hc
          · exact hdig c hc
          · simp at hc
            subst hc
            exact isDigit_digitChar10 (n % 10)
        · rw [digitsVal_append, hval, digitVal_digitChar10 (n % 10) (Nat.mod_lt n (by omega))]
          omega

theorem natDigits_spec (n : Nat) :
    natDigits n ≠ [] ∧ (∀ c ∈ natDigits n, c.isDigit) ∧ digitsVal (natDigits n) = n := by
  have hn : n < 10 ^ (n + 1) := by
    calc n < 2 ^ n := Nat.lt_two_pow n
    _ ≤ 10 ^ n := Nat.pow_le_pow_left (by omega) n
    _ ≤ 10 ^ (n + 1) := Nat.pow_le_pow_right (by omega) (by omega)
  obtain ⟨ds, hds, hne, hdig, hval⟩ := natDigitsAux_spec (n + 1) n [] hn (by omega)
  rw [natDigits, hds]
  simpa using ⟨hne, hdig, hval⟩

theorem natDigits_ne_nil (n : Nat) : natDigits n ≠ [] := (natDigits_spec n).1

theorem natDigits_all_digits (n : Nat) : ∀ c ∈ natDigits n, c.isDigit :=
  (natDigits_spec n).2.1

theorem digitsVal_natDigits (n : Nat) : digitsVal (natDigits n) = n :=
  (natDigits_spec n).2.2

theorem takeWhile_append_not (l t : List Char) (p : Char → Bool)
    (hl : ∀ c ∈ l, p c) (ht : ∀ h rest, t = h :: rest → ¬ p h) :
    (l ++ t).takeWhile p = l ∧ (l ++ t).dropWhile p = t := by
  induction l with
  | nil =>
      cases t with
      | nil => simp
      | cons h rest =>
          have := ht h rest rfl
          constructor
          · simp [List.takeWhile, this]
          · simp [List.dropWhile, this]
  | cons c cs ih =>
      have hc : p c := hl c (by simp)
      have ihh := ih (fun c' hc' => hl c' (by simp [hc']))
      constructor
      · simp [List.takeWhile, hc, ihh.1]
      · simp [List.dropWhile, hc, ihh.2]

theorem wsdlNum?_roundtrip (n : Nat) :
    wsdlNum? (String.mk (natDigits n) ++ ".wsdl") = some n := by
  have hdata : (String.mk (natDigits n) ++ ".wsdl").data
      = natDigits n ++ ['.', 'w', 's', 'd', 'l'] := rfl
  have hsplit := takeWhile_append_not (natDigits n) ['.', 'w', 's', 'd', 'l'] Char.isDigit
    (natDigits_all_digits n) (by intro h rest hh; cases hh; decide)
  rw [wsdlNum?]
  rw [hdata, hsplit.1, hsplit.2]
  simp [natDigits_ne_nil n, digitsVal_natDigits n]

theorem dropLit_self (l s : List Char) : dropLit l (l ++ s) = some s := by
  induction l with
  | nil => simp [dropLit]
  | cons c cs ih => simp [dropLit, ih]

theorem openapiNum?_roundtrip (svc : String) (n : Nat) (ext : List Char)
    (hext : ext = ['.', 'y', 'a', 'm', 'l'] ∨ ext = ['.', 'j', 's', 'o', 'n']) :
    openapiNum? svc (svc ++ "_" ++ String.mk (natDigits n) ++ String.mk ext) = some n := by
  have hdata : (svc ++ "_" ++ String.mk (natDigits n) ++ String.mk ext).data
      = (svc.data ++ ['_']) ++ (natDigits n ++ ext) := by
    simp [String.data_append]
  have hsplit := takeWhile_append_not (natDigits n) ext Char.isDigit
    (natDigits_all_digits n)
    (by
      intro h rest hh
      rcases hext with he | he <;> rw [he] at hh <;> cases hh <;> decide)
  rw [openapiNum?, hdata, dropLit_self]
  simp only [hsplit.1, hsplit.2]
  simp [natDigits_ne_nil n, digitsVal_natDigits n, hext]

/-! ## Claim C1: save_doc dedup and monotonic naming -/

theorem patMax_ge_init (pat : String → Option Nat) :
    ∀ (l : List (String × String)) (m : Int), m ≤ patMax pat l m := by
  intro l
  induction l with
  | nil => intro m; simp [patMax]
  | cons p rest ih =>
      intro m
      unfold patMax
      rcases hp : pat p.1 with _ | n
      · exact ih m
      · exact le_trans (le_max_left m (n : Int)) (ih (max m (n : Int)))

theorem patMax_le_mem (pat : String → Option Nat) :
    ∀ (l : List (String × String)) (m : Int) (f fh : String) (n : Nat),
      (f, fh) ∈ l → pat f = some n → (n : Int) ≤ patMax pat l m := by
  intro l
  induction l with
  | nil => intro m f fh n hmem; simp at hmem
  | cons p rest ih =>
      intro m f fh n hmem hpat
      rcases List.mem_cons.mp hmem with h | h
      · cases h
        unfold patMax
        rw [hpat]
        exact le_trans (le_max_right m (n : Int)) (patMax_ge_init pat rest _)
      · unfold patMax
        rcases hp : pat p.1 with _ | n' <;> exact ih _ f fh n h hpat

theorem patMax_cases (pat : String → Option Nat) :
    ∀ (l : List (String × String)) (m : Int),
      patMax pat l m = m ∨
        ∃ f fh n, (f, fh) ∈ l ∧ pat f = some n ∧ patMax pat l m = (n : Int) := by
  intro l
  induction l with
  | nil => intro m; exact Or.inl rfl
  | cons p rest ih =>
      intro m
      unfold patMax
      rcases hp : pat p.1 with _ | n
      · rcases ih m with h | ⟨f, fh, n, hmem, hpat, hval⟩
        · exact Or.inl h
        · exact Or.inr ⟨f, fh, n, List.mem_cons_of_mem _ hmem, hpat, hval⟩
      · rcases ih (max m (n : Int)) with h | ⟨f, fh, n', hmem, hpat, hval⟩
        · rcases max_choice m (n : Int) with hm | hm
          · exact Or.inl (h.trans hm)
          · exact Or.inr ⟨p.1, p.2, n, by simp, hp, h.trans hm⟩
        · exact Or.inr ⟨f, fh, n', List.mem_cons_of_mem _ hmem, hpat, hval⟩

theorem patMax_none (pat : String → Option Nat) :
    ∀ (l : List (String × String)) (m : Int),
      (∀ p ∈ l, pat p.1 = none) → patMax pat l m = m := by
  intro l
  induction l with
  | nil => intro m _; rfl
  | cons p rest ih =>
      intro m hall
      unfold patMax
      rw [hall p (by simp)]
      exact ih m (fun q hq => hall q (List.mem_cons_of_mem _ hq))

theorem scanHashes_no_match (pat : String → Option Nat) (h : String) :
    ∀ (l : List (String × String)) (m : Int),
      (∀ p ∈ l, (pat p.1).isSome → p.2 ≠ h) →
      scanHashes pat h l m = (none, patMax pat l m) := by
  intro l
  induction l with
  | nil => intro m _; rfl
  | cons p rest ih =>
      intro m hall
      obtain ⟨f, fh⟩ := p
      rcases hp : pat f with _ | n
      · simp only [scanHashes, patMax, hp]
        exact ih m (fun q hq => hall q (List.mem_cons_of_mem _ hq))
      · have hne : fh ≠ h := hall (f, fh) (by simp) (by simp [hp])
        simp only [scanHashes, patMax, hp, if_neg (fun hh => hne (Eq.symm hh))]
        exact ih _ (fun q hq => hall q (List.mem_cons_of_mem _ hq))

theorem scanHashes_found (pat : String → Option Nat) (h : String) :
    ∀ l : List (String × String),
      (∃ p ∈ l, (pat p.1).isSome ∧ p.2 = h) →
      ∃ f, (f, h) ∈ l ∧ (pat f).isSome ∧
        ∀ m, (scanHashes pat h l m).1 = some f := by
  intro l
  induction l with
  | nil => rintro ⟨p, hp, _⟩; simp at hp
  | cons q rest ih =>
      rintro ⟨p, hp, hsome, hhash⟩
      obtain ⟨f, fh⟩ := q
      rcases hpf : pat f with _ | n
      · have hrest : ∃ p ∈ rest, (pat p.1).isSome ∧ p.2 = h := by
          rcases List.mem_cons.mp hp with he | he
          · exfalso
            cases he
            simp [hpf] at hsome
          · exact ⟨p, he, hsome, hhash⟩
        obtain ⟨f', hmem, hsome', hscan⟩ := ih hrest
        refine ⟨f', List.mem_cons_of_mem _ hmem, hsome', ?_⟩
        intro m
        simp only [scanHashes, hpf]
        exact hscan m
      · by_cases hfh : h = fh
        · refine ⟨f, ?_, by simp [hpf], ?_⟩
          · subst hfh
            simp
          · intro m
            simp only [scanHashes, hpf, if_pos hfh]
        · have hrest : ∃ p ∈ rest, (pat p.1).isSome ∧ p.2 = h := by
            rcases List.mem_cons.mp hp with he | he
            · exfalso
              cases he
              exact hfh hhash.symm
            · exact ⟨p, he, hsome, hhash⟩
          obtain ⟨f', hmem, hsome', hscan⟩ := ih hrest
          refine ⟨f', List.mem_cons_of_mem _ hmem, hsome', ?_⟩
          intro m
          simp only [scanHashes, hpf, if_neg hfh]
          exact hscan _

theorem docPat?_eq_patFor (file_ext : String) (service_name : Option String)
    (hvalid : file_ext = "wsdl" ∨ file_ext = "yaml" ∨ file_ext = "json") :
    docPat? file_ext service_name = some (patFor file_ext service_name) := by
  rcases hvalid with h | h | h <;> subst h <;> rfl

theorem patFor_newDocNameFS (file_ext : String) (service_name : Option String)
    (n : Nat) (hvalid : file_ext = "wsdl" ∨ file_ext = "yaml" ∨ file_ext = "json") :
    patFor file_ext service_name (newDocNameFS file_ext service_name n) = some n := by
  rcases hvalid with h | h | h <;> subst h
  · simpa [patFor, newDocNameFS] using wsdlNum?_roundtrip n
  · have hname : newDocNameFS "yaml" service_name n
        = svcStr service_name ++ "_" ++ String.mk (natDigits n)
          ++ String.mk ['.', 'y', 'a', 'm', 'l'] := by
      rw [newDocNameFS, if_neg (by decide), String.append_assoc]
      rfl
    rw [hname]
    simpa [patFor] using
      openapiNum?_roundtrip (svcStr service_name) n ['.', 'y', 'a', 'm', 'l'] (Or.inl rfl)
  · have hname : newDocNameFS "json" service_name n
        = svcStr service_name ++ "_" ++ String.mk (natDigits n)
          ++ String.mk ['.', 'j', 's', 'o', 'n'] := by
      rw [newDocNameFS, if_neg (by decide), String.append_assoc]
      rfl
    rw [hname]
    simpa [patFor] using
      openapiNum?_roundtrip (svcStr service_name) n ['.', 'j', 's', 'o', 'n'] (Or.inr rfl)

/-- The MinIO and filesystem save_doc agree on every input once the MinIO
content type is forgotten. -/
theorem minio_fs_save_doc_agree (md5 : String → String)
    (hashes : List (String × String)) (doc : String) (file_ext : String)
    (service_name : Option String) :
    Except.map minioForget (MinIOPlugin.save_doc md5 hashes doc file_ext service_name) =
      FSPlugin.save_doc md5 hashes doc file_ext service_name := by
  rcases hdp : docPat? file_ext service_name with _ | pat
  · simp only [MinIOPlugin.save_doc, FSPlugin.save_doc, hdp]
    rfl
  · rcases he : scanHashes pat (md5 doc) hashes (-1) with ⟨o, m⟩
    rcases o with _ | f
    · by_cases h1 : file_ext = "wsdl"
      · subst h1
        simp only [MinIOPlugin.save_doc, FSPlugin.save_doc, hdp, he]
        simp [Except.map, minioForget, newDocNameFS]
      · by_cases h2 : file_ext = "yaml"
        · subst h2
          have hy : ("." ++ "yaml" : String) = ".yaml" := rfl
          simp only [MinIOPlugin.save_doc, FSPlugin.save_doc, hdp, he]
          simp [Except.map, minioForget, newDocNameFS, h1, String.append_assoc, hy]
        · have h3 : file_ext = "json" := by
            unfold docPat? at hdp
            rw [if_neg h1] at hdp
            by_cases h3 : file_ext = "yaml" ∨ file_ext = "json"
            · rcases h3 with h | h
              · exact absurd h h2
              · exact h
            · rw [if_neg h3] at hdp
              cases hdp
          subst h3
          have hj : ("." ++ "json" : String) = ".json" := rfl
          simp only [MinIOPlugin.save_doc, FSPlugin.save_doc, hdp, he]
          simp [Except.map, minioForget, newDocNameFS, h1, h2, String.append_assoc, hj]
    · simp only [MinIOPlugin.save_doc, FSPlugin.save_doc, hdp, he]
      rfl

/-- C1: for a valid file extension, save_doc returns an existing
pattern-matching file name when one carries the hash of the document
(writing nothing and leaving the hash dict unchanged), and otherwise
creates a file whose numeric component is one above the maximum of the
pattern-matching entries (zero when there are none), writes the document,
and appends exactly that pair to the hash dict; the MinIO backend agrees
with the filesystem backend on all inputs. -/
theorem C1_save_doc (md5 : String → String) (hashes : List (String × String))
    (doc : String) (file_ext : String) (service_name : Option String)
    (hvalid : file_ext = "wsdl" ∨
      ((file_ext = "yaml" ∨ file_ext = "json") ∧ ∃ s, service_name = some s)) :
    ((∃ p ∈ hashes, (patFor file_ext service_name p.1).isSome ∧ p.2 = md5 doc) →
      ∃ f, (f, md5 doc) ∈ hashes ∧ (patFor file_ext service_name f).isSome ∧
        FSPlugin.save_doc md5 hashes doc file_ext service_name =
          .ok ⟨f, md5 doc, hashes, none⟩) ∧
    ((∀ p ∈ hashes, (patFor file_ext service_name p.1).isSome → p.2 ≠ md5 doc) →
      ∃ N res, FSPlugin.save_doc md5 hashes doc file_ext service_name = .ok res ∧
        res.doc_hash = md5 doc ∧
        patFor file_ext service_name res.doc_name = some N ∧
        ((∀ p ∈ hashes, patFor file_ext service_name p.1 = none) → N = 0) ∧
        (∀ p ∈ hashes, ∀ n, patFor file_ext service_name p.1 = some n → n < N) ∧
        ((∃ p ∈ hashes, (patFor file_ext service_name p.1).isSome) →
          ∃ p ∈ hashes, patFor file_ext service_name p.1 = some (N - 1)) ∧
        res.hashes = hashes ++ [(res.doc_name, md5 doc)] ∧
        res.written = some (res.doc_name, doc)) ∧
    Except.map minioForget (MinIOPlugin.save_doc md5 hashes doc file_ext service_name) =
      FSPlugin.save_doc md5 hashes doc file_ext service_name := by
  have hv3 : file_ext = "wsdl" ∨ file_ext = "yaml" ∨ file_ext = "json" := by
    rcases hvalid with h | ⟨h, _⟩
    · exact Or.inl h
    · exact Or.inr h
  have hdp := docPat?_eq_patFor file_ext service_name hv3
  refine ⟨?_, ?_, minio_fs_save_doc_agree md5 hashes doc file_ext service_name⟩
  · intro hex
    obtain ⟨f, hmem, hsome, hscan⟩ :=
      scanHashes_found (patFor file_ext service_name) (md5 doc) hashes hex
    refine ⟨f, hmem, hsome, ?_⟩
    rcases he : scanHashes (patFor file_ext service_name) (md5 doc) hashes (-1) with ⟨o, m⟩
    have ho : o = some f := by
      have := hscan (-1)
      rw [he] at this
      exact this
    subst ho
    simp only [FSPlugin.save_doc, hdp, he]
  · intro hall
    have hscan := scanHashes_no_match (patFor file_ext service_name) (md5 doc) hashes (-1)
      (by intro p hp hs; exact hall p hp hs)
    have hMge : (-1 : Int) ≤ patMax (patFor file_ext service_name) hashes (-1) :=
      patMax_ge_init _ hashes (-1)
    have hNcast : ((patMax (patFor file_ext service_name) hashes (-1) + 1).toNat : Int)
        = patMax (patFor file_ext service_name) hashes (-1) + 1 :=
      Int.toNat_of_nonneg (by omega)
    have hpatnew := patFor_newDocNameFS file_ext service_name
      (patMax (patFor file_ext service_name) hashes (-1) + 1).toNat hv3
    have hnotmem : newDocNameFS file_ext service_name
        (patMax (patFor file_ext service_name) hashes (-1) + 1).toNat ∉ pyKeys hashes := by
      intro hmem
      obtain ⟨p, hp, hfst⟩ := List.mem_map.mp hmem
      have hle := patMax_le_mem (patFor file_ext service_name) hashes (-1) p.1 p.2 _
        (by simpa using hp) (by rw [hfst]; exact hpatnew)
      omega
    simp only [FSPlugin.save_doc, hdp, hscan]
    refine ⟨(patMax (patFor file_ext service_name) hashes (-1) + 1).toNat,
      _, rfl, rfl, hpatnew, ?_, ?_, ?_, ?_, rfl⟩
    · intro hnone
      have := patMax_none (patFor file_ext service_name) hashes (-1) hnone
      omega
    · intro p hp n hpn
      have := patMax_le_mem (patFor file_ext service_name) hashes (-1) p.1 p.2 n
        (by simpa using hp) hpn
      omega
    · rintro ⟨p, hp, hsome⟩
      rcases patMax_cases (patFor file_ext service_name) hashes (-1) with hcase | hcase
      · exfalso
        rcases Option.isSome_iff_exists.mp hsome with ⟨n, hn⟩
        have := patMax_le_mem (patFor file_ext service_name) hashes (-1) p.1 p.2 n
          (by simpa using hp) hn
        omega
      · obtain ⟨f, fh, n, hmem, hpat, hval⟩ := hcase
        refine ⟨(f, fh), hmem, ?_⟩
        rw [hpat]
        congr 1
        omega
    · exact pyUpdate_append_of_not_mem hashes _ _ hnotmem

/-- Evaluation of C1: the dedup fast path on a concrete hash dict that
already holds the document. -/
theorem C1_save_doc_witness :
    (∃ p ∈ [("3.wsdl", "h0")], (patFor "wsdl" none p.1).isSome ∧ p.2 = "h0") ∧
    (∃ f, (f, "h0") ∈ [("3.wsdl", "h0")] ∧ (patFor "wsdl" none f).isSome ∧
      FSPlugin.save_doc (fun _ => "h0") [("3.wsdl", "h0")] "doc" "wsdl" none =
        .ok ⟨f, "h0", [("3.wsdl", "h0")], none⟩) :=
  ⟨⟨("3.wsdl", "h0"), by decide, by decide, rfl⟩,
   (C1_save_doc (fun _ => "h0") [("3.wsdl", "h0")] "doc" "wsdl" none (Or.inl rfl)).1
     ⟨("3.wsdl", "h0"), by decide, by decide, rfl⟩⟩

/-! ## Claim C3: the per-method timeout latch -/

theorem mem_pyKeys_of_lookup [DecidableEq κ] (d : List (κ × ν)) (k : κ) (v : ν)
    (h : pyLookup d k = some v) : k ∈ pyKeys d := by
  have := pyLookup_eq_some_mem d k v h
  simpa [pyKeys] using List.mem_map_of_mem Prod.fst this

/-- With the latch armed, one loop iteration only fills a SKIPPED record
for an unrecorded method and touches neither the trace nor the store. -/
theorem mstep_skip_true (env : CollectorEnv σ) (subsystem : List String)
    (s : MState σ) (method : List String) (hsk : s.skip_methods = true) :
    mstep env subsystem s method =
      { s with method_index :=
          (if identifier_path method ∈ pyKeys s.method_index then s.method_index
           else pyUpdate s.method_index (identifier_path method)
            (method_item method "SKIPPED" "" "")) } := by
  unfold mstep
  by_cases hm : identifier_path method ∈ pyKeys s.method_index
  · simp [hm]
  · simp [hm, hsk]

/-- With the latch armed, the rest of the loop leaves the latch, the
storage state and the trace unchanged. -/
theorem foldl_mstep_skip (env : CollectorEnv σ) (subsystem : List String) :
    ∀ (l : List (List String)) (s : MState σ), s.skip_methods = true →
      (l.foldl (mstep env subsystem) s).skip_methods = true ∧
      (l.foldl (mstep env subsystem) s).store = s.store ∧
      (l.foldl (mstep env subsystem) s).trace = s.trace := by
  intro l
  induction l with
  | nil => intro s hsk; exact ⟨hsk, rfl, rfl⟩
  | cons method rest ih =>
      intro s hsk
      rw [List.foldl_cons, mstep_skip_true env subsystem s method hsk]
      exact ih _ hsk

/-- With the latch armed, existing records survive the rest of the loop. -/
theorem foldl_mstep_skip_lookup (env : CollectorEnv σ) (subsystem : List String) :
    ∀ (l : List (List String)) (s : MState σ) (name : String) (v : Method),
      s.skip_methods = true → pyLookup s.method_index name = some v →
      pyLookup ((l.foldl (mstep env subsystem) s).method_index) name = some v := by
  intro l
  induction l with
  | nil => intro s name v _ hv; exact hv
  | cons method rest ih =>
      intro s name v hsk hv
      rw [List.foldl_cons, mstep_skip_true env subsystem s method hsk]
      by_cases hm : identifier_path method ∈ pyKeys s.method_index
      · simpa [hm] using ih _ name v hsk (by simpa [hm] using hv)
      · have hne : name ≠ identifier_path method := by
          intro hh
          exact hm (hh ▸ mem_pyKeys_of_lookup _ _ _ hv)
        refine ih _ name v hsk ?_
        simpa [hm] using (pyLookup_update_ne s.method_index _ name _ hne).trans hv

theorem methodsStateAt_succ (env : CollectorEnv σ) (subsystem : List String)
    (st0 : σ) (ms : List (List String)) (k : Nat) (hk : k < ms.length) :
    methodsStateAt env subsystem st0 ms (k + 1) =
      mstep env subsystem (methodsStateAt env subsystem st0 ms k) (ms.get ⟨k, hk⟩) := by
  unfold methodsStateAt
  rw [List.take_succ, List.foldl_append]
  simp [List.getElem?_eq_getElem hk]

theorem methodsStateAt_add (env : CollectorEnv σ) (subsystem : List String)
    (st0 : σ) (ms : List (List String)) (i j : Nat) (hij : i ≤ j) :
    methodsStateAt env subsystem st0 ms j =
      ((ms.drop i).take (j - i)).foldl (mstep env subsystem)
        (methodsStateAt env subsystem st0 ms i) := by
  unfold methodsStateAt
  rw [← List.foldl_append]
  congr 1
  conv_lhs => rw [show j = i + (j - i) by omega]
  rw [List.take_add]

theorem foldl_eq_methodsStateAt_drop (env : CollectorEnv σ) (subsystem : List String)
    (st0 : σ) (ms : List (List String)) (k : Nat) :
    ms.foldl (mstep env subsystem) ⟨[], false, st0, []⟩ =
      (ms.drop k).foldl (mstep env subsystem) (methodsStateAt env subsystem st0 ms k) := by
  unfold methodsStateAt
  rw [← List.foldl_append, List.take_append_drop]

/-- The loop iteration that arms the latch. -/
theorem mstep_timeout (env : CollectorEnv σ) (subsystem : List String)
    (s : MState σ) (method : List String)
    (hsk : s.skip_methods = false)
    (hnew : identifier_path method ∉ pyKeys s.method_index)
    (ht : env.wsdl method = .timeout) :
    mstep env subsystem s method =
      { method_index := pyUpdate s.method_index (identifier_path method)
          (method_item method "TIMEOUT" "" "")
        skip_methods := true
        store := s.store
        trace := s.trace ++ [.fetchWsdl (identifier_path method)] } := by
  unfold mstep
  simp [hnew, hsk, ht]

/-- C3: once a per-method WSDL fetch times out at position i of the
sorted method list, the phase still returns OK with the accumulated
index, no further event (fetch or document save) is produced beyond the
final hash-state save, and every later method not already recorded at its
turn is recorded as SKIPPED with empty wsdl and hash. -/
theorem C3_timeout_skip_latch (env : CollectorEnv σ) (subsystem : List String)
    (st0 : σ) (methods : List (List String)) (i : Nat)
    (hok : env.methods_list = .ok methods)
    (hi : i < (pySortIds methods).length)
    (hskip : (methodsStateAt env subsystem st0 (pySortIds methods) i).skip_methods
      = false)
    (hnew : identifier_path ((pySortIds methods).get ⟨i, hi⟩) ∉
      pyKeys (methodsStateAt env subsystem st0 (pySortIds methods) i).method_index)
    (htimeout : env.wsdl ((pySortIds methods).get ⟨i, hi⟩) = .timeout) :
    (process_methods env subsystem st0).1.1 = "OK" ∧
    (process_methods env subsystem st0).1.2 =
      ((pySortIds methods).foldl (mstep env subsystem)
        ⟨[], false, st0, []⟩).method_index ∧
    (process_methods env subsystem st0).2.2 =
      (methodsStateAt env subsystem st0 (pySortIds methods) (i + 1)).trace
        ++ [.savedState "wsdl"] ∧
    ∀ j, i < j → ∀ hj : j < (pySortIds methods).length,
      identifier_path ((pySortIds methods).get ⟨j, hj⟩) ∉
          pyKeys (methodsStateAt env subsystem st0 (pySortIds methods) j).method_index →
      pyLookup (process_methods env subsystem st0).1.2
          (identifier_path ((pySortIds methods).get ⟨j, hj⟩)) =
        some (method_item ((pySortIds methods).get ⟨j, hj⟩) "SKIPPED" "" "") := by
  have hsucc := methodsStateAt_succ env subsystem st0 (pySortIds methods) i hi
  rw [mstep_timeout env subsystem _ _ hskip hnew htimeout] at hsucc
  have hskip_succ : (methodsStateAt env subsystem st0 (pySortIds methods) (i + 1)).skip_methods
      = true := by rw [hsucc]
  have hstateAt_skip : ∀ j, i + 1 ≤ j →
      (methodsStateAt env subsystem st0 (pySortIds methods) j).skip_methods = true := by
    intro j hij
    rw [methodsStateAt_add env subsystem st0 (pySortIds methods) (i + 1) j hij]
    exact (foldl_mstep_skip env subsystem _ _ hskip_succ).1
  refine ⟨?_, ?_, ?_, ?_⟩
  · simp [process_methods, hok]
  · simp [process_methods, hok]
  · have hdrop := foldl_eq_methodsStateAt_drop env subsystem st0 (pySortIds methods) (i + 1)
    have hfrozen := foldl_mstep_skip env subsystem
      ((pySortIds methods).drop (i + 1))
      (methodsStateAt env subsystem st0 (pySortIds methods) (i + 1)) hskip_succ
    simp only [process_methods, hok]
    rw [hdrop, hfrozen.2.2]
  · intro j hij hj hnewj
    have hskj := hstateAt_skip j (by omega)
    have hsuccj := methodsStateAt_succ env subsystem st0 (pySortIds methods) j hj
    rw [mstep_skip_true env subsystem
      (methodsStateAt env subsystem st0 (pySortIds methods) j)
      ((pySortIds methods).get ⟨j, hj⟩) hskj, if_neg hnewj] at hsuccj
    have hlook : pyLookup
        (methodsStateAt env subsystem st0 (pySortIds methods) (j + 1)).method_index
        (identifier_path ((pySortIds methods).get ⟨j, hj⟩)) =
        some (method_item ((pySortIds methods).get ⟨j, hj⟩) "SKIPPED" "" "") := by
      rw [hsuccj]
      exact pyLookup_update_self _ _ _
    have hskip_succj : (methodsStateAt env subsystem st0
        (pySortIds methods) (j + 1)).skip_methods = true := by
      rw [hsuccj]
      exact hskj
    have hdrop := foldl_eq_methodsStateAt_drop env subsystem st0 (pySortIds methods) (j + 1)
    simp only [process_methods, hok]
    rw [hdrop]
    exact foldl_mstep_skip_lookup env subsystem _ _ _ _ hskip_succj hlook

/-- Evaluation of C3: two methods, the first times out, the second is
recorded as SKIPPED and the phase still reports OK. -/
theorem C3_timeout_skip_latch_witness :
    (process_methods (constEnv (.ok [["a"], ["b"]]) .timeout .timeout) [] ()).1.1
        = "OK" ∧
    pyLookup
        (process_methods (constEnv (.ok [["a"], ["b"]]) .timeout .timeout) [] ()).1.2
        "b" = some (method_item ["b"] "SKIPPED" "" "") := by
  have h := C3_timeout_skip_latch (constEnv (.ok [["a"], ["b"]]) .timeout .timeout)
    [] () [["a"], ["b"]] 0 rfl (by decide) rfl (by decide) rfl
  refine ⟨h.1, ?_⟩
  have h4 := h.2.2.2 1 (by omega) (by decide) (by decide)
  simpa using h4

/-! ## Claim C2: snapshot retention -/

theorem exists_min_old_day (fresh : DT) (k : DT) :
    ∀ l : List Report,
      (∃ r ∈ l, r.reportTime < fresh ∧ day_start r.reportTime = k) →
      ∃ m ∈ l, m.reportTime < fresh ∧ day_start m.reportTime = k ∧
        ∀ r ∈ l, r.reportTime < fresh → day_start r.reportTime = k →
          m.reportTime ≤ r.reportTime := by
  intro l
  induction l with
  | nil => rintro ⟨r, hr, _⟩; simp at hr
  | cons a rest ih =>
      rintro ⟨r, hr, hro, hrd⟩
      by_cases ha : a.reportTime < fresh ∧ day_start a.reportTime = k
      · by_cases hrest : ∃ r' ∈ rest, r'.reportTime < fresh ∧ day_start r'.reportTime = k
        · obtain ⟨m, hm, hmo, hmd, hmin⟩ := ih hrest
          by_cases hcmp : m.reportTime ≤ a.reportTime
          · refine ⟨m, List.mem_cons_of_mem _ hm, hmo, hmd, ?_⟩
            intro r' hr' hro' hrd'
            rcases List.mem_cons.mp hr' with h | h
            · subst h; exact hcmp
            · exact hmin r' h hro' hrd'
          · refine ⟨a, by simp, ha.1, ha.2, ?_⟩
            intro r' hr' hro' hrd'
            rcases List.mem_cons.mp hr' with h | h
            · subst h; exact le_refl _
            · exact le_of_lt (lt_of_lt_of_le (not_le.mp hcmp) (hmin r' h hro' hrd'))
        · refine ⟨a, by simp, ha.1, ha.2, ?_⟩
          intro r' hr' hro' hrd'
          rcases List.mem_cons.mp hr' with h | h
          · subst h; exact le_refl _
          · exact absurd ⟨r', h, hro', hrd'⟩ hrest
      · have hmem : r ∈ rest := by
          rcases List.mem_cons.mp hr with h | h
          · exfalso; subst h; exact ha ⟨hro, hrd⟩
          · exact h
        obtain ⟨m, hm, hmo, hmd, hmin⟩ := ih ⟨r, hmem, hro, hrd⟩
        refine ⟨m, List.mem_cons_of_mem _ hm, hmo, hmd, ?_⟩
        intro r' hr' hro' hrd'
        rcases List.mem_cons.mp hr' with h | h
        · exfalso; subst h; exact ha ⟨hro', hrd'⟩
        · exact hmin r' h hro' hrd'

/-- The loop of get_reports_to_keep: after processing the remaining
reports, unique_paths holds the fresh reports over the initial latest
entry, and filtered_items holds the earliest old report of each day. -/
theorem keep_phase1 (fresh : DT) (r0 : Report) :
    ∀ (todo pre : List Report) (u : List (DT × String)) (f : List (DT × Report)),
      ((pre ++ todo).map Report.reportTime).Nodup →
      (pyKeys u).Nodup → (pyKeys f).Nodup →
      (∀ t p, pyLookup u t = some p ↔
        ((∃ r ∈ pre, fresh ≤ r.reportTime ∧ r.reportTime = t ∧ r.reportPath = p) ∨
         (t = r0.reportTime ∧ p = r0.reportPath ∧
           ∀ r ∈ pre, fresh ≤ r.reportTime → r.reportTime ≠ t))) →
      (∀ k item, pyLookup f k = some item ↔
        (item ∈ pre ∧ item.reportTime < fresh ∧ day_start item.reportTime = k ∧
         ∀ r ∈ pre, r.reportTime < fresh → day_start r.reportTime = k →
           item.reportTime ≤ r.reportTime)) →
      (pyKeys (todo.foldl (keepStep fresh) (u, f)).1).Nodup ∧
      (pyKeys (todo.foldl (keepStep fresh) (u, f)).2).Nodup ∧
      (∀ t p, pyLookup (todo.foldl (keepStep fresh) (u, f)).1 t = some p ↔
        ((∃ r ∈ pre ++ todo, fresh ≤ r.reportTime ∧ r.reportTime = t ∧
            r.reportPath = p) ∨
         (t = r0.reportTime ∧ p = r0.reportPath ∧
           ∀ r ∈ pre ++ todo, fresh ≤ r.reportTime → r.reportTime ≠ t))) ∧
      (∀ k item, pyLookup (todo.foldl (keepStep fresh) (u, f)).2 k = some item ↔
        (item ∈ pre ++ todo ∧ item.reportTime < fresh ∧
         day_start item.reportTime = k ∧
         ∀ r ∈ pre ++ todo, r.reportTime < fresh → day_start r.reportTime = k →
           item.reportTime ≤ r.reportTime)) := by
  intro todo
  induction todo with
  | nil =>
      intro pre u f hnd hu hf hui hfi
      simpa using ⟨hu, hf, hui, hfi⟩
  | cons r todo' ih =>
      intro pre u f hnd hu hf hui hfi
      have hassoc : pre ++ r :: todo' = (pre ++ [r]) ++ todo' := by simp
      have hnd' : (((pre ++ [r]) ++ todo').map Report.reportTime).Nodup := by
        rw [← hassoc]; exact hnd
      have hrtime_pre : ∀ r' ∈ pre, r'.reportTime ≠ r.reportTime := by
        intro r' hr' heq
        have hmap : (pre ++ r :: todo').map Report.reportTime
            = pre.map Report.reportTime
              ++ (r.reportTime :: todo'.map Report.reportTime) := by simp
        have hnd2 := hnd
        rw [hmap] at hnd2
        obtain ⟨_, _, hdisj⟩ := List.nodup_append.mp hnd2
        exact hdisj (heq ▸ List.mem_map_of_mem Report.reportTime hr') (by simp)
      rw [List.foldl_cons]
      by_cases hfr : fresh ≤ r.reportTime
      · have hstep : keepStep fresh (u, f) r =
            (pyUpdate u r.reportTime r.reportPath, f) := by
          simp [keepStep, hfr]
        rw [hstep]
        rw [hassoc]
        refine ih (pre ++ [r]) _ _ hnd' (pyKeys_nodup_update u _ _ hu) hf ?_ ?_
        · intro t p
          by_cases ht : t = r.reportTime
          · subst ht
            rw [pyLookup_update_self]
            simp only [Option.some.injEq]
            constructor
            · rintro rfl
              exact Or.inl ⟨r, by simp, hfr, rfl, rfl⟩
            · rintro (⟨r', hr', hfr', ht', hp'⟩ | ⟨ht0, hp0, hall⟩)
              · rcases List.mem_append.mp hr' with hr' | hr'
                · exact absurd ht' (hrtime_pre r' hr')
                · simp at hr'
                  rw [← hr']
                  exact hp'
              · exact absurd rfl (hall r (by simp) hfr)
          · rw [pyLookup_update_ne u _ t _ ht, hui t p]
            constructor
            · rintro (⟨r', hr', h1, h2, h3⟩ | ⟨h1, h2, h3⟩)
              · exact Or.inl ⟨r', List.mem_append_left _ hr', h1, h2, h3⟩
              · refine Or.inr ⟨h1, h2, ?_⟩
                intro r' hr' hfr'
                rcases List.mem_append.mp hr' with hr' | hr'
                · exact h3 r' hr' hfr'
                · simp at hr'
                  subst hr'
                  exact fun hh => ht hh.symm
            · rintro (⟨r', hr', h1, h2, h3⟩ | ⟨h1, h2, h3⟩)
              · rcases List.mem_append.mp hr' with hr' | hr'
                · exact Or.inl ⟨r', hr', h1, h2, h3⟩
                · exfalso
                  simp at hr'
                  subst hr'
                  exact ht h2.symm
              · exact Or.inr ⟨h1, h2, fun r' hr' hfr' =>
                  h3 r' (List.mem_append_left _ hr') hfr'⟩
        · intro k item
          rw [hfi k item]
          have hnotold : ¬ r.reportTime < fresh := not_lt.mpr hfr
          constructor
          · rintro ⟨h1, h2, h3, h4⟩
            refine ⟨List.mem_append_left _ h1, h2, h3, ?_⟩
            intro r' hr' hro' hrd'
            rcases List.mem_append.mp hr' with hr' | hr'
            · exact h4 r' hr' hro' hrd'
            · exfalso
              simp at hr'
              subst hr'
              exact hnotold hro'
          · rintro ⟨h1, h2, h3, h4⟩
            rcases List.mem_append.mp h1 with h1 | h1
            · exact ⟨h1, h2, h3, fun r' hr' hro' hrd' =>
                h4 r' (List.mem_append_left _ hr') hro' hrd'⟩
            · exfalso
              simp at h1
              subst h1
              exact hnotold h2
      · have hold : r.reportTime < fresh := not_le.mp hfr
        rcases hl : pyLookup f (day_start r.reportTime) with _ | prev
        · have hstep : keepStep fresh (u, f) r =
              (u, pyUpdate f (day_start r.reportTime) r) := by
            simp [keepStep, hfr, hl]
          rw [hstep, hassoc]
          refine ih (pre ++ [r]) _ _ hnd' hu (pyKeys_nodup_update f _ _ hf) ?_ ?_
          · intro t p
            rw [hui t p]
            constructor
            · rintro (⟨r', hr', h1, h2, h3⟩ | ⟨h1, h2, h3⟩)
              · exact Or.inl ⟨r', List.mem_append_left _ hr', h1, h2, h3⟩
              · refine Or.inr ⟨h1, h2, ?_⟩
                intro r' hr' hfr'
                rcases List.mem_append.mp hr' with hr' | hr'
                · exact h3 r' hr' hfr'
                · exfalso
                  simp at hr'
                  subst hr'
                  exact hfr hfr'
            · rintro (⟨r', hr', h1, h2, h3⟩ | ⟨h1, h2, h3⟩)
              · rcases List.mem_append.mp hr' with hr' | hr'
                · exact Or.inl ⟨r', hr', h1, h2, h3⟩
                · exfalso
                  simp at hr'
                  subst hr'
                  exact hfr h1
              · exact Or.inr ⟨h1, h2, fun r' hr' hfr' =>
                  h3 r' (List.mem_append_left _ hr') hfr'⟩
          · intro k item
            by_cases hk : k = day_start r.reportTime
            · subst hk
              rw [pyLookup_update_self]
              simp only [Option.some.injEq]
              constructor
              · rintro rfl
                refine ⟨by simp, hold, rfl, ?_⟩
                intro r' hr' hro' hrd'
                rcases List.mem_append.mp hr' with hr' | hr'
                · exfalso
                  obtain ⟨m, hm, hmo, hmd, hmin⟩ :=
                    exists_min_old_day fresh (day_start r.reportTime) pre
                      ⟨r', hr', hro', hrd'⟩
                  have := (hfi _ m).mpr ⟨hm, hmo, hmd, hmin⟩
                  rw [hl] at this
                  cases this
                · simp at hr'
                  subst hr'
                  exact le_refl _
              · rintro ⟨h1, h2, h3, h4⟩
                rcases List.mem_append.mp h1 with h1 | h1
                · exfalso
                  have := (hfi _ item).mpr ⟨h1, h2, h3, fun r' hr' hro' hrd' =>
                    h4 r' (List.mem_append_left _ hr') hro' hrd'⟩
                  rw [hl] at this
                  cases this
                · simp at h1
                  exact h1.symm
            · rw [pyLookup_update_ne f _ k _ hk, hfi k item]
              constructor
              · rintro ⟨h1, h2, h3, h4⟩
                refine ⟨List.mem_append_left _ h1, h2, h3, ?_⟩
                intro r' hr' hro' hrd'
                rcases List.mem_append.mp hr' with hr' | hr'
                · exact h4 r' hr' hro' hrd'
                · exfalso
                  simp at hr'
                  subst hr'
                  exact hk hrd'.symm
              · rintro ⟨h1, h2, h3, h4⟩
                rcases List.mem_append.mp h1 with h1 | h1
                · exact ⟨h1, h2, h3, fun r' hr' hro' hrd' =>
                    h4 r' (List.mem_append_left _ hr') hro' hrd'⟩
                · exfalso
                  simp at h1
                  subst h1
                  exact hk h3.symm
        · obtain ⟨hpm, hpo, hpd, hpmin⟩ := (hfi _ prev).mp hl
          by_cases hcmp : r.reportTime < prev.reportTime
          · have hstep : keepStep fresh (u, f) r =
                (u, pyUpdate f (day_start r.reportTime) r) := by
              simp [keepStep, hfr, hl, hcmp]
            rw [hstep, hassoc]
            refine ih (pre ++ [r]) _ _ hnd' hu (pyKeys_nodup_update f _ _ hf) ?_ ?_
            · intro t p
              rw [hui t p]
              constructor
              · rintro (⟨r', hr', h1, h2, h3⟩ | ⟨h1, h2, h3⟩)
                · exact Or.inl ⟨r', List.mem_append_left _ hr', h1, h2, h3⟩
                · refine Or.inr ⟨h1, h2, ?_⟩
                  intro r' hr' hfr'
                  rcases List.mem_append.mp hr' with hr' | hr'
                  · exact h3 r' hr' hfr'
                  · exfalso
                    simp at hr'
                    subst hr'
                    exact hfr hfr'
              · rintro (⟨r', hr', h1, h2, h3⟩ | ⟨h1, h2, h3⟩)
                · rcases List.mem_append.mp hr' with hr' | hr'
                  · exact Or.inl ⟨r', hr', h1, h2, h3⟩
                  · exfalso
                    simp at hr'
                    subst hr'
                    exact hfr h1
                · exact Or.inr ⟨h1, h2, fun r' hr' hfr' =>
                    h3 r' (List.mem_append_left _ hr') hfr'⟩
            · intro k item
              by_cases hk : k = day_start r.reportTime
              · subst hk
                rw [pyLookup_update_self]
                simp only [Option.some.injEq]
                constructor
                · rintro rfl
                  refine ⟨by simp, hold, rfl, ?_⟩
                  intro r' hr' hro' hrd'
                  rcases List.mem_append.mp hr' with hr' | hr'
                  · exact le_of_lt (lt_of_lt_of_le hcmp (hpmin r' hr' hro' hrd'))
                  · simp at hr'
                    subst hr'
                    exact le_refl _
                · rintro ⟨h1, h2, h3, h4⟩
                  rcases List.mem_append.mp h1 with h1 | h1
                  · exfalso
                    have hle1 : item.reportTime ≤ r.reportTime :=
                      h4 r (by simp) hold rfl
                    have hle2 : prev.reportTime ≤ item.reportTime :=
                      hpmin item h1 h2 h3
                    exact absurd (lt_of_le_of_lt (hle2.trans hle1) hcmp) (lt_irrefl _)
                  · simp at h1
                    exact h1.symm
              · rw [pyLookup_update_ne f _ k _ hk, hfi k item]
                constructor
                · rintro ⟨h1, h2, h3, h4⟩
                  refine ⟨List.mem_append_left _ h1, h2, h3, ?_⟩
                  intro r' hr' hro' hrd'
                  rcases List.mem_append.mp hr' with hr' | hr'
                  · exact h4 r' hr' hro' hrd'
                  · exfalso
                    simp at hr'
                    subst hr'
                    exact hk hrd'.symm
                · rintro ⟨h1, h2, h3, h4⟩
                  rcases List.mem_append.mp h1 with h1 | h1
                  · exact ⟨h1, h2, h3, fun r' hr' hro' hrd' =>
                      h4 r' (List.mem_append_left _ hr') hro' hrd'⟩
                  · exfalso
                    simp at h1
                    subst h1
                    exact hk h3.symm
          · have hstep : keepStep fresh (u, f) r = (u, f) := by
              simp [keepStep, hfr, hl, hcmp]
            rw [hstep, hassoc]
            refine ih (pre ++ [r]) _ _ hnd' hu hf ?_ ?_
            · intro t p
              rw [hui t p]
              constructor
              · rintro (⟨r', hr', h1, h2, h3⟩ | ⟨h1, h2, h3⟩)
                · exact Or.inl ⟨r', List.mem_append_left _ hr', h1, h2, h3⟩
                · refine Or.inr ⟨h1, h2, ?_⟩
                  intro r' hr' hfr'
                  rcases List.mem_append.mp hr' with hr' | hr'
                  · exact h3 r' hr' hfr'
                  · exfalso
                    simp at hr'
                    subst hr'
                    exact hfr hfr'
              · rintro (⟨r', hr', h1, h2, h3⟩ | ⟨h1, h2, h3⟩)
                · rcases List.mem_append.mp hr' with hr' | hr'
                  · exact Or.inl ⟨r', hr', h1, h2, h3⟩
                  · exfalso
                    simp at hr'
                    subst hr'
                    exact hfr h1
                · exact Or.inr ⟨h1, h2, fun r' hr' hfr' =>
                    h3 r' (List.mem_append_left _ hr') hfr'⟩
            · intro k item
              by_cases hk : k = day_start r.reportTime
              · subst hk
                rw [hl]
                simp only [Option.some.injEq]
                have hprev_le : prev.reportTime ≤ r.reportTime := not_lt.mp hcmp
                constructor
                · rintro rfl
                  refine ⟨List.mem_append_left _ hpm, hpo, hpd, ?_⟩
                  intro r' hr' hro' hrd'
                  rcases List.mem_append.mp hr' with hr' | hr'
                  · exact hpmin r' hr' hro' hrd'
                  · simp at hr'
                    subst hr'
                    exact hprev_le
                · rintro ⟨h1, h2, h3, h4⟩
                  rcases List.mem_append.mp h1 with h1 | h1
                  · have := (hfi _ item).mpr ⟨h1, h2, h3, fun r' hr' hro' hrd' =>
                      h4 r' (List.mem_append_left _ hr') hro' hrd'⟩
                    exact Option.some.inj (hl.symm.trans this)
                  · exfalso
                    simp at h1
                    have hle1 := h4 prev (List.mem_append_left _ hpm) hpo hpd
                    rw [h1] at hle1
                    exact hrtime_pre prev hpm (le_antisymm hprev_le hle1)
              · rw [hfi k item]
                constructor
                · rintro ⟨h1, h2, h3, h4⟩
                  refine ⟨List.mem_append_left _ h1, h2, h3, ?_⟩
                  intro r' hr' hro' hrd'
                  rcases List.mem_append.mp hr' with hr' | hr'
                  · exact h4 r' hr' hro' hrd'
                  · exfalso
                    simp at hr'
                    subst hr'
                    exact hk hrd'.symm
                · rintro ⟨h1, h2, h3, h4⟩
                  rcases List.mem_append.mp h1 with h1 | h1
                  · exact ⟨h1, h2, h3, fun r' hr' hro' hrd' =>
                      h4 r' (List.mem_append_left _ hr') hro' hrd'⟩
                  · exfalso
                    simp at h1
                    subst h1
                    exact hk h3.symm

/-- The second loop of get_reports_to_keep: folding the first-of-day
entries over unique_paths. -/
theorem keep_phase2 :
    ∀ (fl : List (DT × Report)) (u : List (DT × String)),
      (pyKeys u).Nodup →
      (fl.map (fun kv => kv.2.reportTime)).Nodup →
      (pyKeys (fl.foldl
        (fun u kv => pyUpdate u kv.2.reportTime kv.2.reportPath) u)).Nodup ∧
      (∀ t p, pyLookup (fl.foldl
          (fun u kv => pyUpdate u kv.2.reportTime kv.2.reportPath) u) t = some p ↔
        ((∃ kv ∈ fl, kv.2.reportTime = t ∧ kv.2.reportPath = p) ∨
         (pyLookup u t = some p ∧ ∀ kv ∈ fl, kv.2.reportTime ≠ t))) := by
  intro fl
  induction fl with
  | nil =>
      intro u hu _
      refine ⟨hu, ?_⟩
      intro t p
      simp
  | cons kv rest ih =>
      intro u hu hnd
      have hndc : kv.2.reportTime ∉ rest.map (fun kv => kv.2.reportTime) ∧
          (rest.map (fun kv => kv.2.reportTime)).Nodup := by
        rw [List.map_cons, List.nodup_cons] at hnd
        exact hnd
      have hndrest : (rest.map (fun kv => kv.2.reportTime)).Nodup := hndc.2
      have hkvrest : ∀ kv' ∈ rest, kv'.2.reportTime ≠ kv.2.reportTime := by
        intro kv' h' heq
        exact hndc.1 (heq ▸ List.mem_map_of_mem (fun kv => kv.2.reportTime) h')
      rw [List.foldl_cons]
      obtain ⟨hkeys, hiff⟩ :=
        ih (pyUpdate u kv.2.reportTime kv.2.reportPath)
          (pyKeys_nodup_update u _ _ hu) hndrest
      refine ⟨hkeys, ?_⟩
      intro t p
      rw [hiff t p]
      by_cases ht : t = kv.2.reportTime
      · subst ht
        rw [pyLookup_update_self]
        simp only [Option.some.injEq]
        constructor
        · rintro (⟨kv', h1, h2, h3⟩ | ⟨h1, _⟩)
          · exact absurd h2 (hkvrest kv' h1)
          · exact Or.inl ⟨kv, by simp, rfl, h1⟩
        · rintro (⟨kv', h1, h2, h3⟩ | ⟨h1, h2⟩)
          · rcases List.mem_cons.mp h1 with h | h
            · rw [h] at h3
              exact Or.inr ⟨h3, fun kv'' h'' => hkvrest kv'' h''⟩
            · exact absurd h2 (hkvrest kv' h)
          · exact absurd rfl (h2 kv (by simp))
      · rw [pyLookup_update_ne u _ t _ ht]
        constructor
        · rintro (⟨kv', h1, h2, h3⟩ | ⟨h1, h2⟩)
          · exact Or.inl ⟨kv', List.mem_cons_of_mem _ h1, h2, h3⟩
          · refine Or.inr ⟨h1, ?_⟩
            intro kv' h'
            rcases List.mem_cons.mp h' with h | h
            · rw [h]
              exact fun hh => ht hh.symm
            · exact h2 kv' h
        · rintro (⟨kv', h1, h2, h3⟩ | ⟨h1, h2⟩)
          · rcases List.mem_cons.mp h1 with h | h
            · exfalso
              rw [h] at h2
              exact ht h2.symm
            · exact Or.inl ⟨kv', h, h2, h3⟩
          · exact Or.inr ⟨h1, fun kv' h' => h2 kv' (List.mem_cons_of_mem _ h')⟩

theorem mem_pathSort (l : List String) (p : String) : p ∈ pathSort l ↔ p ∈ l :=
  (List.perm_insertionSort _ l).mem_iff

theorem pyLookup_single [DecidableEq κ] (k t : κ) (v p : ν) :
    pyLookup [(k, v)] t = some p ↔ t = k ∧ p = v := by
  constructor
  · intro hp
    by_cases h : k = t
    · subst h
      simp [pyLookup] at hp
      exact ⟨rfl, hp.symm⟩
    · simp [pyLookup, h] at hp
  · rintro ⟨rfl, rfl⟩
    simp [pyLookup]

/-- Membership in the output of get_reports_to_keep: a path is kept
exactly when some report carrying it is fresh, is the head of the list,
or is the earliest old report of its calendar day. -/
theorem keep_mem_characterization (fresh : DT) (r0 : Report) (rest : List Report)
    (hnd : ((r0 :: rest).map Report.reportTime).Nodup) :
    ∃ out, get_reports_to_keep (r0 :: rest) fresh = .ok out ∧
      ∀ p, p ∈ out ↔ ∃ r ∈ r0 :: rest, r.reportPath = p ∧
        keepCond (r0 :: rest) fresh r0 r := by
  have hinj := List.inj_on_of_nodup_map hnd
  obtain ⟨hA1nd, hA2nd, hAui, hAfi⟩ :=
    keep_phase1 fresh r0 (r0 :: rest) [] [(r0.reportTime, r0.reportPath)] []
      (by simpa using hnd)
      (by simp [pyKeys])
      (by simp [pyKeys])
      (by
        intro t p
        rw [pyLookup_single]
        simp)
      (by
        intro k item
        simp [pyLookup])
  simp only [List.nil_append] at hA1nd hA2nd hAui hAfi
  set A := (r0 :: rest).foldl (keepStep fresh)
    ([(r0.reportTime, r0.reportPath)], ([] : List (DT × Report))) with hA
  have hA2mem : ∀ kv ∈ A.2, pyLookup A.2 kv.1 = some kv.2 := by
    intro kv hkv
    exact pyLookup_of_mem_nodup A.2 kv.1 kv.2 hA2nd (by simpa using hkv)
  have hA2timesnd : (A.2.map (fun kv => kv.2.reportTime)).Nodup := by
    refine List.Nodup.map_on ?_ (List.Nodup.of_map Prod.fst hA2nd)
    intro kv1 h1 kv2 h2 heq
    obtain ⟨hm1, _, hd1, _⟩ := (hAfi kv1.1 kv1.2).mp (hA2mem kv1 h1)
    obtain ⟨hm2, _, hd2, _⟩ := (hAfi kv2.1 kv2.2).mp (hA2mem kv2 h2)
    have hv : kv1.2 = kv2.2 := hinj hm1 hm2 heq
    have hk : kv1.1 = kv2.1 := by rw [← hd1, ← hd2, hv]
    exact Prod.ext hk hv
  obtain ⟨hUnd, hUiff⟩ := keep_phase2 A.2 A.1 hA1nd hA2timesnd
  refine ⟨_, rfl, ?_⟩
  intro p
  rw [← hA, mem_pathSort, mem_pyValues_iff_lookup _ _ hUnd]
  constructor
  · rintro ⟨t, hlook⟩
    rcases (hUiff t p).mp hlook with ⟨kv, hkv, hkt, hkp⟩ | ⟨hlu, _⟩
    · obtain ⟨hm, ho, hd, hmin⟩ := (hAfi kv.1 kv.2).mp (hA2mem kv hkv)
      refine ⟨kv.2, hm, hkp, Or.inr (Or.inr ⟨ho, ?_⟩)⟩
      intro r' hr' hro' hrd'
      exact hmin r' hr' hro' (by rw [hrd', hd])
    · rcases (hAui t p).mp hlu with ⟨r, hr, h1, h2, h3⟩ | ⟨h1, h2, _⟩
      · exact ⟨r, hr, h3, Or.inl h1⟩
      · exact ⟨r0, by simp, h2.symm, Or.inr (Or.inl rfl)⟩
  · rintro ⟨r, hr, hp, hcond⟩
    rcases hcond with hfr | hr0 | ⟨hold, hmin⟩
    · refine ⟨r.reportTime, ?_⟩
      rw [hUiff]
      refine Or.inr ⟨(hAui r.reportTime p).mpr (Or.inl ⟨r, hr, hfr, rfl, hp⟩), ?_⟩
      intro kv hkv heq
      obtain ⟨hm, ho, _, _⟩ := (hAfi kv.1 kv.2).mp (hA2mem kv hkv)
      have := hinj hm hr heq
      rw [this] at ho
      exact absurd hfr (not_le.mpr ho)
    · subst hr0
      by_cases hex : ∃ kv ∈ A.2, kv.2.reportTime = r.reportTime
      · obtain ⟨kv, hkv, heq⟩ := hex
        obtain ⟨hm, _, _, _⟩ := (hAfi kv.1 kv.2).mp (hA2mem kv hkv)
        have hveq : kv.2 = r := hinj hm hr heq
        refine ⟨r.reportTime, ?_⟩
        rw [hUiff]
        exact Or.inl ⟨kv, hkv, heq, by rw [hveq, hp]⟩
      · refine ⟨r.reportTime, ?_⟩
        rw [hUiff]
        refine Or.inr ⟨?_, fun kv hkv heq => hex ⟨kv, hkv, heq⟩⟩
        rw [hAui]
        by_cases hfex : ∃ rr ∈ r :: rest, fresh ≤ rr.reportTime ∧
            rr.reportTime = r.reportTime
        · obtain ⟨rr, hrr, hfrr, heq⟩ := hfex
          have : rr = r := hinj hrr hr heq
          subst this
          exact Or.inl ⟨rr, hrr, hfrr, rfl, hp⟩
        · exact Or.inr ⟨rfl, hp.symm, fun rr hrr hfrr heq =>
            hfex ⟨rr, hrr, hfrr, heq⟩⟩
    · refine ⟨r.reportTime, ?_⟩
      rw [hUiff]
      have hlk : pyLookup A.2 (day_start r.reportTime) = some r :=
        (hAfi (day_start r.reportTime) r).mpr ⟨hr, hold, rfl, hmin⟩
      exact Or.inl ⟨(day_start r.reportTime, r),
        pyLookup_eq_some_mem _ _ _ hlk, rfl, hp⟩

/-- C2 counterexample: with duplicated report paths the claimed
equivalence fails as stated; here the second report satisfies none of the
three conditions but its path is kept through the third report. -/
theorem C2_counterexample :
    List.Pairwise (fun a b : Report => b.reportTime < a.reportTime)
      [⟨⟨2024, 1, 2, 0, 0, 0⟩, "q"⟩, ⟨⟨2024, 1, 1, 10, 0, 0⟩, "p"⟩,
       ⟨⟨2024, 1, 1, 9, 0, 0⟩, "p"⟩] ∧
    get_reports_to_keep
      [⟨⟨2024, 1, 2, 0, 0, 0⟩, "q"⟩, ⟨⟨2024, 1, 1, 10, 0, 0⟩, "p"⟩,
       ⟨⟨2024, 1, 1, 9, 0, 0⟩, "p"⟩] ⟨2025, 1, 1, 0, 0, 0⟩ = .ok ["p", "q"] ∧
    ¬ (∀ r ∈ [(⟨⟨2024, 1, 2, 0, 0, 0⟩, "q"⟩ : Report),
          ⟨⟨2024, 1, 1, 10, 0, 0⟩, "p"⟩, ⟨⟨2024, 1, 1, 9, 0, 0⟩, "p"⟩],
        (r.reportPath ∈ ["p", "q"] ↔
          keepCond
            [⟨⟨2024, 1, 2, 0, 0, 0⟩, "q"⟩, ⟨⟨2024, 1, 1, 10, 0, 0⟩, "p"⟩,
             ⟨⟨2024, 1, 1, 9, 0, 0⟩, "p"⟩]
            ⟨2025, 1, 1, 0, 0, 0⟩ ⟨⟨2024, 1, 2, 0, 0, 0⟩, "q"⟩ r)) :=
  ⟨by decide, by rfl, by decide⟩

/-- C2 (amended): for a non-empty report list sorted newest-first with
distinct report times and pairwise-distinct report paths, a report's path
is kept exactly when the report is fresh, is the earliest old report of
its calendar day, or is the head of the list; in particular the most
recent report is always kept. -/
theorem C2_reports_to_keep_amended (reports : List Report) (fresh_time : DT)
    (r0 : Report) (rest : List Report) (hcons : reports = r0 :: rest)
    (hsorted : reports.Pairwise (fun a b => b.reportTime < a.reportTime))
    (hpaths : (reports.map Report.reportPath).Nodup) :
    ∃ out, get_reports_to_keep reports fresh_time = .ok out ∧
      r0.reportPath ∈ out ∧
      ∀ r ∈ reports, (r.reportPath ∈ out ↔ keepCond reports fresh_time r0 r) := by
  subst hcons
  have hnd : ((r0 :: rest).map Report.reportTime).Nodup :=
    List.pairwise_map.mpr (hsorted.imp (fun h => ne_of_gt h))
  obtain ⟨out, heq, hiff⟩ := keep_mem_characterization fresh_time r0 rest hnd
  have hpinj := List.inj_on_of_nodup_map hpaths
  refine ⟨out, heq, ?_, ?_⟩
  · exact (hiff r0.reportPath).mpr ⟨r0, by simp, rfl, Or.inr (Or.inl rfl)⟩
  · intro r hr
    constructor
    · intro hmem
      obtain ⟨r', hr', hp', hcond⟩ := (hiff r.reportPath).mp hmem
      have hre : r' = r := hpinj hr' hr hp'
      rwa [hre] at hcond
    · intro hcond
      exact (hiff r.reportPath).mpr ⟨r, hr, rfl, hcond⟩

/-- Evaluation of C2 (amended) on two fresh reports with distinct paths. -/
theorem C2_reports_to_keep_amended_witness :
    get_reports_to_keep
      [⟨⟨2024, 1, 2, 0, 0, 0⟩, "b"⟩, ⟨⟨2024, 1, 1, 0, 0, 0⟩, "a"⟩]
      ⟨2024, 1, 1, 0, 0, 0⟩ = .ok ["a", "b"] ∧ "b" ∈ ["a", "b"] := by
  obtain ⟨out, heq, hr0, _⟩ := C2_reports_to_keep_amended
    [⟨⟨2024, 1, 2, 0, 0, 0⟩, "b"⟩, ⟨⟨2024, 1, 1, 0, 0, 0⟩, "a"⟩]
    ⟨2024, 1, 1, 0, 0, 0⟩ ⟨⟨2024, 1, 2, 0, 0, 0⟩, "b"⟩
    [⟨⟨2024, 1, 1, 0, 0, 0⟩, "a"⟩] rfl (by decide) (by decide)
  have houteq : out = ["a", "b"] :=
    Except.ok.inj (heq.symm.trans (by rfl))
  exact ⟨houteq ▸ heq, houteq ▸ hr0⟩

/-! ## Claim C4: filtered history -/

theorem contrVia_append (gs : List ((DT → DT) × Option DT))
    (g : (DT → DT) × Option DT) (K t : DT) :
    ContrVia (gs ++ [g]) K t ↔
      ContrVia gs K t ∨ (g.1 t = K ∧ cutOkB g.2 K = true) := by
  constructor
  · rintro ⟨g', hg', hgk, hgc⟩
    rcases List.mem_append.mp hg' with hg' | hg'
    · exact Or.inl ⟨g', hg', hgk, hgc⟩
    · simp at hg'
      subst hg'
      exact Or.inr ⟨hgk, hgc⟩
  · rintro (⟨g', hg', hgk, hgc⟩ | ⟨hgk, hgc⟩)
    · exact ⟨g', List.mem_append_left _ hg', hgk, hgc⟩
    · exact ⟨g, List.mem_append_right _ (by simp), hgk, hgc⟩

/-- One add_filtered call preserves the intermediate invariant of the
filtered_items dict, extending the processed-granularity list. -/
theorem histMid_step (strptime : String → Option DT) (hc dc mc : DT)
    (latest : HItem) (pre : List HItem) (e : HItem) (te : DT)
    (gs_done : List ((DT → DT) × Option DT)) (fi : List (DT × DT × HItem))
    (g : (DT → DT) × Option DT)
    (hg : g ∈ granularities hc dc mc)
    (hparse_e : strptime e.reportTime = some te)
    (hlat : latest ∈ pre ∨ e = latest)
    (hplat : ∃ tl, strptime latest.reportTime = some tl)
    (hinv : HistMidInv strptime hc dc mc latest pre e te gs_done fi) :
    HistMidInv strptime hc dc mc latest pre e te (gs_done ++ [g])
      (add_filtered fi (g.1 te) te e g.2) := by
  obtain ⟨hnd, hA, hB, hC⟩ := hinv
  obtain ⟨tl, hpl⟩ := hplat
  by_cases hcut : cutOkB g.2 (g.1 te) = true
  · have hstep0 : add_filtered fi (g.1 te) te e g.2 =
        add_filtered_upd fi (g.1 te) te e := by
      unfold add_filtered
      rw [if_pos hcut]
    rw [hstep0]
    rcases hl : pyLookup fi (g.1 te) with _ | prev
    · -- key absent: insert (te, e)
      have hstep : add_filtered_upd fi (g.1 te) te e =
          pyUpdate fi (g.1 te) (te, e) := by
        unfold add_filtered_upd
        rw [hl]
      rw [hstep]
      have hnopre : ¬ ∃ e' ∈ pre, ∃ t, strptime e'.reportTime = some t ∧
          ContrVia (granularities hc dc mc) (g.1 te) t := by
        intro hexx
        have := hB _ (Or.inl hexx)
        rw [hl] at this
        simp at this
      have hnewlat : e.reportTime = latest.reportTime → e = latest := by
        intro heq
        rcases hlat with hlat | hlat
        · exfalso
          have hpl' : strptime latest.reportTime = some tl := hpl
          rw [← heq, hparse_e] at hpl
          have htl : tl = te := (Option.some.inj hpl).symm
          exact hnopre ⟨latest, hlat, tl, hpl', ⟨g, hg, by rw [htl], hcut⟩⟩
        · exact hlat
      refine ⟨pyKeys_nodup_update fi _ _ hnd, ?_, ?_, ?_⟩
      · intro K t item hlk
        by_cases hK : K = g.1 te
        · subst hK
          rw [pyLookup_update_self] at hlk
          have hpair := Option.some.inj hlk
          have ht : te = t := congrArg Prod.fst hpair
          have hi : e = item := congrArg Prod.snd hpair
          subst ht
          subst hi
          refine ⟨Or.inr ⟨rfl, rfl⟩, hparse_e, ⟨g, hg, rfl, hcut⟩, ?_, fun _ => le_refl te⟩
          intro e' he' t' hp' hc'
          exact absurd ⟨e', he', t', hp', hc'⟩ hnopre
        · rw [pyLookup_update_ne fi _ K _ hK] at hlk
          obtain ⟨h1, h2, h3, h4, h5⟩ := hA K t item hlk
          refine ⟨h1, h2, h3, h4, ?_⟩
          rw [contrVia_append]
          rintro (hv | ⟨hgk, hgc⟩)
          · exact h5 hv
          · exact absurd hgk.symm hK
      · intro K hK
        by_cases hKk : K = g.1 te
        · subst hKk
          rw [pyLookup_update_self]
          rfl
        · rw [pyLookup_update_ne fi _ K _ hKk]
          rcases hK with hK | hvia
          · exact hB K (Or.inl hK)
          · rw [contrVia_append] at hvia
            rcases hvia with hv | ⟨hgk, hgc⟩
            · exact hB K (Or.inr hv)
            · exact absurd hgk.symm hKk
      · intro K t item hlk heq
        by_cases hK : K = g.1 te
        · subst hK
          rw [pyLookup_update_self] at hlk
          have hpair := Option.some.inj hlk
          have hi : e = item := congrArg Prod.snd hpair
          rw [← hi] at heq ⊢
          exact hnewlat heq
        · rw [pyLookup_update_ne fi _ K _ hK] at hlk
          exact hC K t item hlk heq
    · obtain ⟨hp1, hp2, hp3, hp4, hp5⟩ := hA _ prev.1 prev.2 (by rw [hl])
      by_cases hcmp : te < prev.1
      · -- replace with (te, e)
        have hstep : add_filtered_upd fi (g.1 te) te e =
            pyUpdate fi (g.1 te) (te, e) := by
          simp only [add_filtered_upd, hl]
          rw [if_pos hcmp]
        rw [hstep]
        have hnewlat : e.reportTime = latest.reportTime → e = latest := by
          intro heq
          rcases hlat with hlat | hlat
          · exfalso
            have hpl' : strptime latest.reportTime = some tl := hpl
            rw [← heq, hparse_e] at hpl
            have htl : tl = te := (Option.some.inj hpl).symm
            have := hp4 latest hlat tl hpl' ⟨g, hg, by rw [htl], hcut⟩
            rw [htl] at this
            exact absurd (lt_of_le_of_lt this hcmp) (lt_irrefl _)
          · exact hlat
        refine ⟨pyKeys_nodup_update fi _ _ hnd, ?_, ?_, ?_⟩
        · intro K t item hlk
          by_cases hK : K = g.1 te
          · subst hK
            rw [pyLookup_update_self] at hlk
            have hpair := Option.some.inj hlk
            have ht : te = t := congrArg Prod.fst hpair
            have hi : e = item := congrArg Prod.snd hpair
            subst ht
            subst hi
            refine ⟨Or.inr ⟨rfl, rfl⟩, hparse_e, ⟨g, hg, rfl, hcut⟩, ?_,
              fun _ => le_refl te⟩
            intro e' he' t' hp' hc'
            exact le_of_lt (lt_of_lt_of_le hcmp (hp4 e' he' t' hp' hc'))
          · rw [pyLookup_update_ne fi _ K _ hK] at hlk
            obtain ⟨h1, h2, h3, h4, h5⟩ := hA K t item hlk
            refine ⟨h1, h2, h3, h4, ?_⟩
            rw [contrVia_append]
            rintro (hv | ⟨hgk, hgc⟩)
            · exact h5 hv
            · exact absurd hgk.symm hK
        · intro K hK
          by_cases hKk : K = g.1 te
          · subst hKk
            rw [pyLookup_update_self]
            rfl
          · rw [pyLookup_update_ne fi _ K _ hKk]
            rcases hK with hK | hvia
            · exact hB K (Or.inl hK)
            · rw [contrVia_append] at hvia
              rcases hvia with hv | ⟨hgk, hgc⟩
              · exact hB K (Or.inr hv)
              · exact absurd hgk.symm hKk
        · intro K t item hlk heq
          by_cases hK : K = g.1 te
          · subst hK
            rw [pyLookup_update_self] at hlk
            have hpair := Option.some.inj hlk
            have hi : e = item := congrArg Prod.snd hpair
            rw [← hi] at heq ⊢
            exact hnewlat heq
          · rw [pyLookup_update_ne fi _ K _ hK] at hlk
            exact hC K t item hlk heq
      · -- keep the stored entry
        have hstep : add_filtered_upd fi (g.1 te) te e = fi := by
          simp only [add_filtered_upd, hl]
          rw [if_neg hcmp]
        rw [hstep]
        have hple : prev.1 ≤ te := not_lt.mp hcmp
        refine ⟨hnd, ?_, ?_, hC⟩
        · intro K t item hlk
          obtain ⟨h1, h2, h3, h4, h5⟩ := hA K t item hlk
          refine ⟨h1, h2, h3, h4, ?_⟩
          rw [contrVia_append]
          rintro (hv | ⟨hgk, hgc⟩)
          · exact h5 hv
          · rw [← hgk] at hlk
            have hpr := Option.some.inj (hl.symm.trans hlk)
            have ht : prev.1 = t := congrArg Prod.fst hpr
            rw [← ht]
            exact hple
        · intro K hK
          rcases hK with hK | hvia
          · exact hB K (Or.inl hK)
          · rw [contrVia_append] at hvia
            rcases hvia with hv | ⟨hgk, hgc⟩
            · exact hB K (Or.inr hv)
            · rw [← hgk, hl]
              rfl
  · have hstep : add_filtered fi (g.1 te) te e g.2 = fi := by
      unfold add_filtered
      rw [if_neg hcut]
    rw [hstep]
    refine ⟨hnd, ?_, ?_, hC⟩
    · intro K t item hlk
      obtain ⟨h1, h2, h3, h4, h5⟩ := hA K t item hlk
      refine ⟨h1, h2, h3, h4, ?_⟩
      rw [contrVia_append]
      rintro (hv | ⟨hgk, hgc⟩)
      · exact h5 hv
      · exact absurd (hgk ▸ hgc) hcut
    · intro K hK
      rcases hK with hK | hvia
      · exact hB K (Or.inl hK)
      · rw [contrVia_append] at hvia
        rcases hvia with hv | ⟨hgk, hgc⟩
        · exact hB K (Or.inr hv)
        · exact absurd (hgk ▸ hgc) hcut

/-- Feeding one history item through all four add_filtered calls of the
filtered_history loop body preserves HistInv, appending the item to the
processed prefix. -/
theorem hist_step_inv (strptime : String → Option DT) (hc dc mc : DT)
    (latest : HItem) (pre : List HItem) (e : HItem) (te : DT)
    (fi : List (DT × DT × HItem))
    (hparse_e : strptime e.reportTime = some te)
    (hlat : latest ∈ pre ∨ e = latest)
    (hplat : ∃ tl, strptime latest.reportTime = some tl)
    (hinv : HistInv strptime hc dc mc latest pre fi) :
    HistInv strptime hc dc mc latest (pre ++ [e])
      (add_filtered (add_filtered (add_filtered
        (add_filtered fi (hour_start te) te e (some hc)) (day_start te) te e (some dc))
        (month_start te) te e (some mc)) (year_start te) te e none) := by
  have h0 : HistMidInv strptime hc dc mc latest pre e te [] fi := by
    obtain ⟨hnd, hA, hB, hC⟩ := hinv
    refine ⟨hnd, ?_, ?_, hC⟩
    · intro K t item hlk
      obtain ⟨h1, h2, h3, h4⟩ := hA K t item hlk
      refine ⟨Or.inl h1, h2, h3, h4, ?_⟩
      rintro ⟨g', hg', -, -⟩
      simp at hg'
    · intro K hK
      rcases hK with hK | ⟨g', hg', -, -⟩
      · exact hB K hK
      · simp at hg'
  have h1 := histMid_step strptime hc dc mc latest pre e te [] fi
    (hour_start, some hc) (by simp [granularities]) hparse_e hlat hplat h0
  have h2 := histMid_step strptime hc dc mc latest pre e te _ _
    (day_start, some dc) (by simp [granularities]) hparse_e hlat hplat h1
  have h3 := histMid_step strptime hc dc mc latest pre e te _ _
    (month_start, some mc) (by simp [granularities]) hparse_e hlat hplat h2
  have h4 := histMid_step strptime hc dc mc latest pre e te _ _
    (year_start, none) (by simp [granularities]) hparse_e hlat hplat h3
  obtain ⟨hnd, hA, hB, hC⟩ := h4
  refine ⟨hnd, ?_, ?_, hC⟩
  · intro K t item hlk
    obtain ⟨h1', h2', h3', h4', h5'⟩ := hA K t item hlk
    refine ⟨?_, h2', h3', ?_⟩
    · rcases h1' with h1' | ⟨hi, -⟩
      · exact List.mem_append_left _ h1'
      · exact List.mem_append_right _ (by simp [hi])
    · intro e' he' t' hp' hc'
      rcases List.mem_append.mp he' with he'm | he'm
      · exact h4' e' he'm t' hp' hc'
      · have he'' : e' = e := by simpa using he'm
        rw [he'', hparse_e] at hp'
        have hte : te = t' := Option.some.inj hp'
        subst hte
        exact h5' hc'
  · intro K hK
    obtain ⟨e', he', t', hp', hc'⟩ := hK
    rcases List.mem_append.mp he' with he'm | he'm
    · exact hB K (Or.inl ⟨e', he'm, t', hp', hc'⟩)
    · have he'' : e' = e := by simpa using he'm
      rw [he'', hparse_e] at hp'
      have hte : te = t' := Option.some.inj hp'
      subst hte
      exact hB K (Or.inr hc')

/-- The filtered_history loop preserves HistInv along any successful run. -/
theorem histFold_inv (strptime : String → Option DT) (hc dc mc : DT)
    (latest : HItem) :
    ∀ (todo pre : List HItem) (fi fi' : List (DT × DT × HItem)),
      HistInv strptime hc dc mc latest pre fi →
      latest ∈ pre →
      (∃ tl, strptime latest.reportTime = some tl) →
      histFold strptime hc dc mc todo fi = .ok fi' →
      HistInv strptime hc dc mc latest (pre ++ todo) fi' := by
  intro todo
  induction todo with
  | nil =>
      intro pre fi fi' hinv _ _ heq
      simp only [histFold] at heq
      injection heq with h
      subst h
      simpa using hinv
  | cons e todo' ih =>
      intro pre fi fi' hinv hlat hplat heq
      simp only [histFold] at heq
      rcases hpe : strptime e.reportTime with _ | te
      · simp [histStep, hpe] at heq
      · simp only [histStep, hpe] at heq
        have hinv' := hist_step_inv strptime hc dc mc latest pre e te fi hpe
          (Or.inl hlat) hplat hinv
        have hres := ih (pre ++ [e]) _ fi' hinv' (List.mem_append_left _ hlat) hplat heq
        simpa [List.append_assoc] using hres

/-- The filtered_history loop succeeds when every report time parses. -/
theorem histFold_ok (strptime : String → Option DT) (hc dc mc : DT) :
    ∀ (todo : List HItem) (fi : List (DT × DT × HItem)),
      (∀ e ∈ todo, (strptime e.reportTime).isSome = true) →
      ∃ fi', histFold strptime hc dc mc todo fi = .ok fi' := by
  intro todo
  induction todo with
  | nil => exact fun fi _ => ⟨fi, rfl⟩
  | cons e todo' ih =>
      intro fi hp
      have he : (strptime e.reportTime).isSome = true := hp e (by simp)
      rcases hpe : strptime e.reportTime with _ | te
      · rw [hpe] at he
        simp at he
      · obtain ⟨fi', hfi'⟩ := ih (add_filtered (add_filtered (add_filtered
          (add_filtered fi (hour_start te) te e (some hc)) (day_start te) te e (some dc))
          (month_start te) te e (some mc)) (year_start te) te e none)
          (fun e' he' => hp e' (by simp [he']))
        refine ⟨fi', ?_⟩
        simp only [histFold, histStep, hpe]
        exact hfi'

/-- The unique_items fold keeps the newest entry under its key when no
other stored item carries the newest entry's reportTime string. -/
theorem uniqueFold_latest (latest : HItem) :
    ∀ (fl : List (DT × DT × HItem)) (u : List (String × HItem)),
      pyLookup u latest.reportTime = some latest →
      (∀ kv ∈ fl, kv.2.2.reportTime = latest.reportTime → kv.2.2 = latest) →
      pyLookup (fl.foldl (fun u kv => pyUpdate u kv.2.2.reportTime kv.2.2) u)
        latest.reportTime = some latest := by
  intro fl
  induction fl with
  | nil => exact fun u h _ => h
  | cons kv fl' ih =>
      intro u h hall
      simp only [List.foldl_cons]
      refine ih _ ?_ (fun kv' hkv' => hall kv' (by simp [hkv']))
      by_cases hk : kv.2.2.reportTime = latest.reportTime
      · have hkl : kv.2.2 = latest := hall kv (by simp) hk
        rw [hkl]
        exact pyLookup_update_self u _ _
      · rw [pyLookup_update_ne u _ _ _ (fun hh => hk hh.symm)]
        exact h

/-- Every value of the unique_items fold result comes from the initial
dict or from a stored filtered item. -/
theorem uniqueFold_values :
    ∀ (fl : List (DT × DT × HItem)) (u : List (String × HItem)) (item : HItem),
      item ∈ pyValues (fl.foldl (fun u kv => pyUpdate u kv.2.2.reportTime kv.2.2) u) →
      item ∈ pyValues u ∨ ∃ kv ∈ fl, kv.2.2 = item := by
  intro fl
  induction fl with
  | nil => exact fun u item h => Or.inl h
  | cons kv fl' ih =>
      intro u item h
      simp only [List.foldl_cons] at h
      rcases ih _ item h with h' | ⟨kv', hkv', hkv''⟩
      · rcases mem_pyValues_update u _ _ _ h' with h'' | h''
        · exact Or.inr ⟨kv, by simp, h''.symm⟩
        · exact Or.inl h''
      · exact Or.inr ⟨kv', by simp [hkv'], hkv''⟩

/-- histSortDesc keeps exactly the members of its input. -/
theorem mem_histSortDesc (l : List HItem) (e : HItem) :
    e ∈ histSortDesc l ↔ e ∈ l :=
  (List.perm_insertionSort _ l).mem_iff

/-- histSortDesc output is pairwise descending in the reportTime string. -/
theorem histSortDesc_sorted (l : List HItem) :
    (histSortDesc l).Pairwise (fun a b => b.reportTime ≤ a.reportTime) := by
  haveI htot : IsTotal HItem (fun a b => strLeB b.reportTime a.reportTime = true) := by
    refine ⟨fun a b => ?_⟩
    rcases le_total b.reportTime a.reportTime with h | h
    · exact Or.inl ((strLeB_iff _ _).mpr h)
    · exact Or.inr ((strLeB_iff _ _).mpr h)
  haveI htr : IsTrans HItem (fun a b => strLeB b.reportTime a.reportTime = true) := by
    refine ⟨fun a b c hab hbc => ?_⟩
    exact (strLeB_iff _ _).mpr (le_trans ((strLeB_iff _ _).mp hbc) ((strLeB_iff _ _).mp hab))
  have hs := List.sorted_insertionSort
    (fun a b : HItem => strLeB b.reportTime a.reportTime = true) l
  exact hs.imp (fun hab => (strLeB_iff _ _).mp hab)

/-- C4 (amended): for a non-empty history whose entries all parse, the
output of filtered_history contains the newest (first) entry, descends in
reportTime, and every output entry other than the newest is the earliest
entry of some hour/day/month/year bucket admitted by its window cutoff. -/
theorem C4_filtered_history_amended (strptime : String → Option DT)
    (json_history : List HItem) (hc dc mc : DT) (latest : HItem) (rest : List HItem)
    (hcons : json_history = latest :: rest)
    (hparse : ∀ e ∈ json_history, (strptime e.reportTime).isSome = true) :
    ∃ out, filtered_history strptime json_history hc dc mc = .ok out ∧
      latest ∈ out ∧
      out.Pairwise (fun a b => b.reportTime ≤ a.reportTime) ∧
      ∀ e ∈ out, e = latest ∨ isBucketMin strptime json_history hc dc mc e := by
  subst hcons
  have hplS : (strptime latest.reportTime).isSome = true := hparse latest (by simp)
  rcases hple : strptime latest.reportTime with _ | tl
  · rw [hple] at hplS
    simp at hplS
  · have hbase : HistInv strptime hc dc mc latest [] [] := by
      refine ⟨by simp [pyKeys], ?_, ?_, ?_⟩
      · intro K t item h
        simp [pyLookup] at h
      · rintro K ⟨e, he, -⟩
        simp at he
      · intro K t item h
        simp [pyLookup] at h
    have h1 := hist_step_inv strptime hc dc mc latest [] latest tl [] hple
      (Or.inr rfl) ⟨tl, hple⟩ hbase
    obtain ⟨fl, hfl⟩ := histFold_ok strptime hc dc mc rest
      (add_filtered (add_filtered (add_filtered
        (add_filtered [] (hour_start tl) tl latest (some hc)) (day_start tl) tl latest
          (some dc)) (month_start tl) tl latest (some mc)) (year_start tl) tl latest none)
      (fun e he => hparse e (by simp [he]))
    have hinv := histFold_inv strptime hc dc mc latest rest ([] ++ [latest]) _ fl h1
      (by simp) ⟨tl, hple⟩ hfl
    simp only [List.nil_append, List.singleton_append] at hinv
    obtain ⟨hnd, hA, hB, hC⟩ := hinv
    have hfold : histFold strptime hc dc mc (latest :: rest) [] = .ok fl := by
      simp only [histFold, histStep, hple]
      exact hfl
    refine ⟨histSortDesc (pyValues (fl.foldl
        (fun u kv => pyUpdate u kv.2.2.reportTime kv.2.2)
        [(latest.reportTime, latest)])), ?_, ?_, ?_, ?_⟩
    · simp only [filtered_history, hfold]
    · rw [mem_histSortDesc]
      have hall : ∀ kv ∈ fl, kv.2.2.reportTime = latest.reportTime → kv.2.2 = latest := by
        intro kv hkv heq
        have hlk : pyLookup fl kv.1 = some kv.2 :=
          pyLookup_of_mem_nodup fl kv.1 kv.2 hnd (by simpa using hkv)
        exact hC kv.1 kv.2.1 kv.2.2 (by rw [hlk]) heq
      have hlook := uniqueFold_latest latest fl [(latest.reportTime, latest)]
        (by simp [pyLookup]) hall
      exact mem_pyValues_of_lookup _ _ _ hlook
    · exact histSortDesc_sorted _
    · intro e he
      rw [mem_histSortDesc] at he
      rcases uniqueFold_values fl [(latest.reportTime, latest)] e he with h' | ⟨kv, hkv, hkve⟩
      · left
        simpa [pyValues] using h'
      · right
        have hlk : pyLookup fl kv.1 = some kv.2 :=
          pyLookup_of_mem_nodup fl kv.1 kv.2 hnd (by simpa using hkv)
        obtain ⟨hmem, hp, ⟨g, hg, hgk, hgc⟩, hmin⟩ := hA kv.1 kv.2.1 kv.2.2 (by rw [hlk])
        rw [← hkve]
        exact ⟨kv.2.1, hp, g, hg, by rw [hgk]; exact hgc, fun e' he' t' hp' hkeq =>
          hmin e' he' t' hp' ⟨g, hg, hkeq.trans hgk, hgc⟩⟩

/-- The original universally quantified form of C4 fails: on a history of
two entries in the same hour, the newest entry appears in the output but
is not the earliest entry of any bucket. -/
theorem C4_counterexample :
    filtered_history strptimeEx
        [⟨"2020-01-01 10:30:00", "A"⟩, ⟨"2020-01-01 10:00:00", "B"⟩]
        ⟨1, 1, 1, 0, 0, 0⟩ ⟨1, 1, 1, 0, 0, 0⟩ ⟨1, 1, 1, 0, 0, 0⟩ =
      .ok [⟨"2020-01-01 10:30:00", "A"⟩, ⟨"2020-01-01 10:00:00", "B"⟩] ∧
    ¬ isBucketMin strptimeEx
        [⟨"2020-01-01 10:30:00", "A"⟩, ⟨"2020-01-01 10:00:00", "B"⟩]
        ⟨1, 1, 1, 0, 0, 0⟩ ⟨1, 1, 1, 0, 0, 0⟩ ⟨1, 1, 1, 0, 0, 0⟩
        ⟨"2020-01-01 10:30:00", "A"⟩ := by
  constructor
  · rfl
  · rintro ⟨t, ht, g, hg, hcut, hmin⟩
    have hts : strptimeEx "2020-01-01 10:30:00" = some ⟨2020, 1, 1, 10, 30, 0⟩ := rfl
    have htt : t = ⟨2020, 1, 1, 10, 30, 0⟩ := Option.some.inj (ht.symm.trans hts)
    subst htt
    have hmem : (⟨"2020-01-01 10:00:00", "B"⟩ : HItem) ∈
        [(⟨"2020-01-01 10:30:00", "A"⟩ : HItem), ⟨"2020-01-01 10:00:00", "B"⟩] := by simp
    have hp2 : strptimeEx (HItem.reportTime ⟨"2020-01-01 10:00:00", "B"⟩) =
        some ⟨2020, 1, 1, 10, 0, 0⟩ := rfl
    simp only [granularities, List.mem_cons, List.not_mem_nil, or_false] at hg
    rcases hg with hg | hg | hg | hg
    all_goals
      subst hg
    all_goals
      exact absurd (hmin _ hmem _ hp2 (by decide)) (by decide)

theorem C4_filtered_history_amended_witness :
    ∃ out, filtered_history strptimeEx
        [⟨"2020-01-01 10:30:00", "A"⟩, ⟨"2020-01-01 10:00:00", "B"⟩]
        ⟨1, 1, 1, 0, 0, 0⟩ ⟨1, 1, 1, 0, 0, 0⟩ ⟨1, 1, 1, 0, 0, 0⟩ = .ok out ∧
      (⟨"2020-01-01 10:30:00", "A"⟩ : HItem) ∈ out ∧
      out.Pairwise (fun a b => b.reportTime ≤ a.reportTime) ∧
      ∀ e ∈ out, e = ⟨"2020-01-01 10:30:00", "A"⟩ ∨
        isBucketMin strptimeEx
          [⟨"2020-01-01 10:30:00", "A"⟩, ⟨"2020-01-01 10:00:00", "B"⟩]
          ⟨1, 1, 1, 0, 0, 0⟩ ⟨1, 1, 1, 0, 0, 0⟩ ⟨1, 1, 1, 0, 0, 0⟩ e :=
  C4_filtered_history_amended strptimeEx
    [⟨"2020-01-01 10:30:00", "A"⟩, ⟨"2020-01-01 10:00:00", "B"⟩]
    ⟨1, 1, 1, 0, 0, 0⟩ ⟨1, 1, 1, 0, 0, 0⟩ ⟨1, 1, 1, 0, 0, 0⟩
    ⟨"2020-01-01 10:30:00", "A"⟩ [⟨"2020-01-01 10:00:00", "B"⟩] rfl (by decide)

/-! ## Claim C5: exported subsystem status mapping -/

/-- C5: the snapshot entry produced by export_subsystem has
subsystemStatus OK exactly when the methods-phase status is OK and ERROR
otherwise (TIMEOUT is exported as ERROR), and the same mapping holds
between servicesStatus and the services-phase status. -/
theorem C5_export_subsystem_status (subsystem : Subsystem) :
    ((export_subsystem subsystem).subsystemStatus = "OK" ↔
      subsystem.methods_status = "OK") ∧
    (subsystem.methods_status ≠ "OK" →
      (export_subsystem subsystem).subsystemStatus = "ERROR") ∧
    ((export_subsystem subsystem).servicesStatus = "OK" ↔
      subsystem.services_status = "OK") ∧
    (subsystem.services_status ≠ "OK" →
      (export_subsystem subsystem).servicesStatus = "ERROR") := by
  unfold export_subsystem
  by_cases h1 : subsystem.methods_status = "OK" <;>
    by_cases h2 : subsystem.services_status = "OK" <;>
      simp [h1, h2]

/-- Evaluation of C5 on a subsystem whose methods phase timed out and
whose services phase succeeded. -/
theorem C5_export_subsystem_status_witness :
    (export_subsystem ⟨"p", "i", "c", "m", "s", "TIMEOUT", "OK", [], []⟩).subsystemStatus
        = "ERROR" ∧
    (export_subsystem ⟨"p", "i", "c", "m", "s", "TIMEOUT", "OK", [], []⟩).servicesStatus
        = "OK" :=
  ⟨(C5_export_subsystem_status ⟨"p", "i", "c", "m", "s", "TIMEOUT", "OK", [], []⟩).2.1
      (by decide),
   (C5_export_subsystem_status ⟨"p", "i", "c", "m", "s", "TIMEOUT", "OK", [], []⟩).2.2.1.mpr
      rfl⟩

/-! ## Claim C9: post-run result processing -/

/-- C9: _process_results exits with code 1 without saving the catalogue
when the storage backend is inactive or all subsystems failed, and
otherwise saves the catalogue; all subsystems failed means no subsystem
has methods-phase status OK. -/
theorem C9_process_results (storage_active : Bool)
    (results : List (String × Subsystem)) :
    ((storage_active = false ∨ all_results_failed results = true) →
      process_results storage_active results = .exited 1) ∧
    (storage_active = true → all_results_failed results = false →
      process_results storage_active results = .savedCatalogue results) ∧
    (all_results_failed results = true ↔
      ∀ p ∈ results, p.2.methods_status ≠ "OK") := by
  refine ⟨?_, ?_, ?_⟩
  · rintro (h | h)
    · subst h
      simp [process_results]
    · unfold process_results
      rcases storage_active with _ | _ <;> simp [h]
  · intro ha hf
    subst ha
    simp [process_results, hf]
  · simp [all_results_failed, List.all_eq_true]

/-- Evaluation of C9 with an inactive storage backend. -/
theorem C9_process_results_witness :
    process_results false [] = .exited 1 :=
  (C9_process_results false []).1 (Or.inl rfl)

/-! ## Claim C10: empty input lists -/

/-- C10: both filtered_history and get_reports_to_keep index the first
element of their input, so on the empty list each fails with an index
error instead of returning an empty result. -/
theorem C10_empty_input_index_error (strptime : String → Option DT)
    (hour_cut day_cut month_cut fresh_time : DT) :
    filtered_history strptime [] hour_cut day_cut month_cut = .error "IndexError" ∧
    get_reports_to_keep [] fresh_time = .error "IndexError" :=
  ⟨rfl, rfl⟩

/-! ## Claim C8: listMethods failure handling -/

/-- C8: when the listMethods call of _process_methods times out the
function returns TIMEOUT with an empty map, on any other client error it
returns ERROR with an empty map, and in both cases the trace is empty: no
document is stored and no per-method fetch is attempted. -/
theorem C8_list_methods_failure (env : CollectorEnv σ) (subsystem : List String)
    (st0 : σ) :
    (env.methods_list = .timeout →
      process_methods env subsystem st0 = (("TIMEOUT", []), st0, [])) ∧
    (∀ msg, env.methods_list = .clientError msg →
      process_methods env subsystem st0 = (("ERROR", []), st0, [])) := by
  constructor
  · intro h
    simp [process_methods, h]
  · intro msg h
    simp [process_methods, h]

/-- Evaluation of C8 on an environment whose listMethods times out. -/
theorem C8_list_methods_failure_witness :
    process_methods (constEnv .timeout .timeout .timeout) [] ()
      = (("TIMEOUT", []), (), []) :=
  (C8_list_methods_failure (constEnv .timeout .timeout .timeout) [] ()).1 rfl

/-! ## Claim C7: NotOpenapiService versus parse failure -/

/-- C7: in the service loop of _process_services, a NotOpenapiService
outcome records the service with status OK, empty openapi, empty hash and
no endpoints and processing continues with the next service, while a
fetched document whose load or endpoint extraction fails is recorded with
status ERROR and empty openapi. -/
theorem C7_not_openapi_vs_parse_error (env : CollectorEnv σ) (s : SState σ)
    (service : List String) (rest : List (List String)) :
    (s.skip_services = false → env.openapi service = .notOpenapiService →
      (service :: rest).foldl (sstep env) s =
        rest.foldl (sstep env)
          { s with
              results := s.results ++ [service_item service "OK" "" "" []]
              trace := s.trace ++ [.fetchOpenapi (identifier_path service)] }) ∧
    (∀ doc, s.skip_services = false → env.openapi service = .ok doc →
      (env.load_openapi doc = none ∨
        (∃ ot, env.load_openapi doc = some ot ∧ env.openapi_endpoints doc = none)) →
      (service :: rest).foldl (sstep env) s =
        rest.foldl (sstep env)
          { s with
              results := s.results ++ [service_item service "ERROR" "" "" []]
              trace := s.trace ++ [.fetchOpenapi (identifier_path service)] }) := by
  constructor
  · intro hsk hno
    rw [List.foldl_cons]
    congr 1
    simp [sstep, hsk, hno]
  · intro doc hsk hok hfail
    rw [List.foldl_cons]
    congr 1
    rcases hfail with hl | ⟨ot, hl, he⟩
    · simp [sstep, hsk, hok, hl]
    · simp [sstep, hsk, hok, hl, he]

/-- Evaluation of C7: a NotOpenapiService answer for one service. -/
theorem C7_not_openapi_vs_parse_error_witness :
    [([] : List String)].foldl (sstep (constEnv .timeout .timeout .notOpenapiService))
        ⟨[], false, (), []⟩ =
      { results := [service_item [] "OK" "" "" []]
        skip_services := false
        store := ()
        trace := [Ev.fetchOpenapi ""] } := by
  have h := (C7_not_openapi_vs_parse_error
    (constEnv .timeout .timeout .notOpenapiService) ⟨[], false, (), []⟩ [] []).1 rfl rfl
  simpa using h

/-! ## Claim C6: OK services with a description have endpoints -/

/-- One step of the service loop preserves the endpoint invariant of C6,
assuming the xrdinfo client never returns an empty endpoint list (it
raises instead, per the specified client interface). -/
theorem sstep_endpoints_inv (env : CollectorEnv σ)
    (hep : ∀ doc l, env.openapi_endpoints doc = some l → l ≠ [])
    (s : SState σ) (service : List String)
    (hs : ∀ svc ∈ s.results, svc.status = "OK" → svc.openapi ≠ "" → svc.endpoints ≠ []) :
    ∀ svc ∈ (sstep env s service).results,
      svc.status = "OK" → svc.openapi ≠ "" → svc.endpoints ≠ [] := by
  intro svc hmem
  unfold sstep at hmem
  by_cases hsk : s.skip_services
  · simp [hsk] at hmem
    rcases hmem with hmem | hmem
    · exact hs svc hmem
    · subst hmem
      intro h
      simp [service_item] at h
  · simp [hsk] at hmem
    rcases ho : env.openapi service with _ | _ | msg | doc <;> rw [ho] at hmem <;>
      simp at hmem
    · rcases hmem with hmem | hmem
      · exact hs svc hmem
      · subst hmem
        intro h
        simp [service_item] at h
    · rcases hmem with hmem | hmem
      · exact hs svc hmem
      · subst hmem
        intro _ h
        simp [service_item] at h
    · rcases hmem with hmem | hmem
      · exact hs svc hmem
      · subst hmem
        intro h
        simp [service_item] at h
    · rcases hl : env.load_openapi doc with _ | ot <;> rw [hl] at hmem <;> simp at hmem
      · rcases hmem with hmem | hmem
        · exact hs svc hmem
        · subst hmem
          intro h
          simp [service_item] at h
      · rcases he : env.openapi_endpoints doc with _ | eps <;> rw [he] at hmem <;>
          simp at hmem
        · rcases hmem with hmem | hmem
          · exact hs svc hmem
          · subst hmem
            intro h
            simp [service_item] at h
        · rcases hmem with hmem | hmem
          · exact hs svc hmem
          · subst hmem
            intro _ _
            simpa [service_item] using hep doc eps he

/-- The service loop preserves the endpoint invariant of C6. -/
theorem foldl_sstep_endpoints_inv (env : CollectorEnv σ)
    (hep : ∀ doc l, env.openapi_endpoints doc = some l → l ≠ []) :
    ∀ (l : List (List String)) (s : SState σ),
      (∀ svc ∈ s.results, svc.status = "OK" → svc.openapi ≠ "" → svc.endpoints ≠ []) →
      ∀ svc ∈ (l.foldl (sstep env) s).results,
        svc.status = "OK" → svc.openapi ≠ "" → svc.endpoints ≠ [] := by
  intro l
  induction l with
  | nil => intro s hs; simpa using hs
  | cons service rest ih =>
      intro s hs
      rw [List.foldl_cons]
      exact ih (sstep env s service) (sstep_endpoints_inv env hep s service hs)

/-- C6: every service produced by _process_services with status OK and a
non-empty openapi reference has at least one endpoint, provided the
xrdinfo client never returns an empty endpoint list (the specified
interface raises a client error instead). -/
theorem C6_ok_openapi_has_endpoints (env : CollectorEnv σ) (st0 : σ)
    (hep : ∀ doc l, env.openapi_endpoints doc = some l → l ≠ [])
    (svc : Service) (hmem : svc ∈ (process_services env st0).1.2)
    (hok : svc.status = "OK") (hopen : svc.openapi ≠ "") : svc.endpoints ≠ [] := by
  unfold process_services at hmem
  rcases hml : env.methods_rest with _ | msg | services <;> rw [hml] at hmem <;>
    simp at hmem
  exact foldl_sstep_endpoints_inv env hep (pySortIds services)
    ⟨[], false, st0, []⟩ (by simp) svc hmem hok hopen

/-- Evaluation of C6 on a service whose OpenAPI document has one
endpoint. -/
theorem C6_ok_openapi_has_endpoints_witness :
    (service_item ["i", "c", "m", "s", "code"] "OK" "svc_0.json" "h0"
        [[("verb", "GET")]]).endpoints ≠ [] :=
  C6_ok_openapi_has_endpoints envC6 ()
    (by
      intro doc l h
      injection h with h
      subst h
      decide)
    (service_item ["i", "c", "m", "s", "code"] "OK" "svc_0.json" "h0" [[("verb", "GET")]])
    (by decide) rfl (by decide)

end XRC
